import Mathlib

/-!
# microshell: tokenizer, builtin dispatch and `head`

A shallow embedding of `src/microshell.c`.

Modelling conventions.

* A C string is the list of its characters before the terminating NUL, so
  `strlen line` is `line.length` and `line[i]` is `line[i]?`, where `none`
  stands for the terminating NUL read at index `strlen line`.  The characters of
  the list are the non-NUL characters of the string.
* A `char*` slot of the argument vector is a `Slot`: never written
  (`uninit`), `NULL` (`null`) or a pointer to an owned string (`str`).
* The block behind `char** parts` is the list of its slots; its length is the
  number of slots really allocated.  A store outside the block is reported as
  `fault` by the model instead of being performed.
* `malloc` and `realloc` are taken to succeed (the code terminates the
  process otherwise).
* `int` counters are unbounded integers: every counter of the tokenizer is
  bounded by the length of the line plus `LINE_PARTS_BUFF_SIZE`
  (`loopHead_counters_bounded`).
-/

namespace Microshell

/-! ## Argument vector -/

/-- One `char*` cell of an argument vector. -/
inductive Slot where
  | uninit : Slot
  | null : Slot
  | str (s : List Char) : Slot
  deriving DecidableEq, Repr

/-- Value of `#define LINE_PARTS_BUFF_SIZE 16`. -/
def LINE_PARTS_BUFF_SIZE : Nat := 16

/-- Local variables of `shell_separate_line` that live across loop iterations. -/
structure SepState where
  parts : List Slot
  parts_array_position : Nat
  parts_array_buffer_size : Nat
  position : Nat
  deriving DecidableEq, Repr

/-- Result of executing the body of the `while` loop once. -/
inductive Ctl where
  | next (s : SepState) : Ctl
  | brk (s : SepState) : Ctl
  | fault : Ctl
  deriving DecidableEq, Repr

/-- Result of running the `while` loop of `shell_separate_line`. -/
inductive Outcome where
  | done (s : SepState) : Outcome
  | broke (s : SepState) : Outcome
  | fault : Outcome
  | out_of_fuel : Outcome
  deriving DecidableEq, Repr

/-- The store `parts[i] = v`; `none` when `i` is outside the allocated block. -/
def write_slot (parts : List Slot) (i : Nat) (v : Slot) : Option (List Slot) :=
  if i < parts.length then some (parts.set i v) else none

/-- The call `realloc(parts, sizeof(char*) * n)`: the first `n` slots are kept,
new slots are not initialised. -/
def realloc (parts : List Slot) (n : Nat) : List Slot :=
  parts.take n ++ List.replicate (n - parts.length) Slot.uninit

/-- The read `line[i]` of a C string: `none` is the terminating NUL. -/
abbrev char_at (cs : List Char) (i : Nat) : Option Char := cs[i]?

/-- Auxiliary for `scan_until`, with the number of remaining characters as fuel. -/
def scan_until_aux (stop : Char) (line : List Char) : Nat → Nat → Nat
  | 0, position => position
  | fuel + 1, position =>
    match char_at line position with
    | some c => if c ≠ stop then scan_until_aux stop line fuel (position + 1) else position
    | none => position

/-- The inner loops `while(line[position] != stop && line[position] != '\0') position++;`
(lines 173-175 with `stop = '"'`, lines 186-188 and 192-194 with `stop = ' '`). -/
def scan_until (stop : Char) (line : List Char) (position : Nat) : Nat :=
  scan_until_aux stop line (line.length - position) position

/-- Lines 197-214: copy `line[trim_start_position .. trim_end_position]` into a new
string, store it at `parts[parts_array_position]`, grow the block when it is full. -/
def store_part (line : List Char) (s : SepState) (position : Nat)
    (trim_start_position : Nat) (trim_end_position : Int) : Ctl :=
  let part_length : Int := trim_end_position - trim_start_position + 1
  let part : List Char := (line.drop trim_start_position).take part_length.toNat
  match write_slot s.parts s.parts_array_position (Slot.str part) with
  | none => Ctl.fault
  | some parts =>
    let parts_array_position := s.parts_array_position + 1
    if parts_array_position ≥ s.parts_array_buffer_size then
      let parts_array_buffer_size := s.parts_array_buffer_size + LINE_PARTS_BUFF_SIZE
      Ctl.next
        { parts := realloc parts parts_array_buffer_size
          parts_array_position := parts_array_position
          parts_array_buffer_size := parts_array_buffer_size
          position := position }
    else
      Ctl.next
        { parts := parts
          parts_array_position := parts_array_position
          parts_array_buffer_size := s.parts_array_buffer_size
          position := position }

/-- Lines 167-214: one execution of the body of the `while` loop. -/
def loop_body (line : List Char) (s : SepState) : Ctl :=
  match char_at line s.position with
  | none => Ctl.fault
  | some c =>
    if c = ' ' then
      Ctl.next { s with position := s.position + 1 }
    else if c = '"' then
      let trim_start_position := s.position + 1
      let position := scan_until '"' line (s.position + 1)
      match char_at line position with
      | none =>
        match write_slot s.parts 0 Slot.null with
        | none => Ctl.fault
        | some parts => Ctl.brk { s with parts := parts, position := position }
      | some _ =>
        let trim_end_position : Int := (position : Int) - 1
        store_part line s (position + 1) trim_start_position trim_end_position
    else if c = '\\' then
      let trim_start_position := s.position + 1
      let position := scan_until ' ' line (s.position + 1)
      let trim_end_position : Int := (position : Int) - 1
      store_part line s position trim_start_position trim_end_position
    else
      let trim_start_position := s.position
      let position := scan_until ' ' line s.position
      let trim_end_position : Int := (position : Int) - 1
      store_part line s position trim_start_position trim_end_position

/-- The loop `while(position < strlen(line)) { ... }` of lines 166-215, with a
bound on the number of iterations. -/
def sep_loop (line : List Char) : Nat → SepState → Outcome
  | 0, s => if s.position < line.length then Outcome.out_of_fuel else Outcome.done s
  | fuel + 1, s =>
    if s.position < line.length then
      match loop_body line s with
      | Ctl.next s1 => sep_loop line fuel s1
      | Ctl.brk s1 => Outcome.broke s1
      | Ctl.fault => Outcome.fault
    else Outcome.done s

/-- Lines 157-163: the state on entry to the loop. -/
def sep_init : SepState :=
  { parts := List.replicate LINE_PARTS_BUFF_SIZE Slot.uninit
    parts_array_position := 0
    parts_array_buffer_size := LINE_PARTS_BUFF_SIZE
    position := 0 }

/-- The loop of `shell_separate_line` run from the entry state; every iteration
consumes a character, so `strlen(line)` iterations are enough. -/
def sep_run (line : List Char) : Outcome :=
  sep_loop line line.length sep_init

/-- Line 216: `parts[parts_array_position] = NULL;` on the state left by the loop. -/
def sep_finish : Outcome → Option SepState
  | Outcome.done s | Outcome.broke s =>
    (write_slot s.parts s.parts_array_position Slot.null).map
      fun parts => { s with parts := parts }
  | Outcome.fault | Outcome.out_of_fuel => none

/-- The state of `shell_separate_line` at its `return`. -/
def sep_final (line : List Char) : Option SepState :=
  sep_finish (sep_run line)

/-- The function `shell_separate_line`: the returned block, or `none` when a
store fell outside the block or the iteration bound was hit. -/
def shell_separate_line (line : List Char) : Option (List Slot) :=
  (sep_final line).map SepState.parts

/-- The read `args[i]` of an argument vector; a slot outside the block is
as undetermined as one never written. -/
def arg (args : List Slot) (i : Nat) : Slot :=
  args.getD i Slot.uninit

/-- The strings a consumer of an argument vector sees: the entries before the first
`NULL`; `none` when the walk meets a slot never written or leaves the block. -/
def argv : List Slot → Option (List (List Char))
  | [] => none
  | Slot.uninit :: _ => none
  | Slot.null :: _ => some []
  | Slot.str a :: rest => (argv rest).map fun as => a :: as

/-! ## Builtin dispatch -/

/-- The functions listed in `shell_builtins_functions`. -/
inductive Handler where
  | shell_cd : Handler
  | shell_exit : Handler
  | shell_help : Handler
  | shell_cp : Handler
  | shell_ps : Handler
  | shell_head : Handler
  | shell_history : Handler
  deriving DecidableEq, Repr

/-- The table `char* shell_builtins[]` (lines 65-73). -/
def shell_builtins : List (List Char) :=
  [['c', 'd'], ['e', 'x', 'i', 't'], ['h', 'e', 'l', 'p'], ['c', 'p'], ['p', 's'],
   ['h', 'e', 'a', 'd'], ['h', 'i', 's', 't', 'o', 'r', 'y']]

/-- The table `shell_builtins_functions[]` (lines 75-83). -/
def shell_builtins_functions : List Handler :=
  [Handler.shell_cd, Handler.shell_exit, Handler.shell_help, Handler.shell_cp,
   Handler.shell_ps, Handler.shell_head, Handler.shell_history]

/-- The function `get_number_of_shell_builtins`: `sizeof(shell_builtins) / sizeof(char*)`. -/
def get_number_of_shell_builtins : Nat :=
  shell_builtins.length

/-- What one call of `shell_run` does. -/
inductive RunEffect where
  /-- Line 222: the diagnostic "Cannot parse command properly"; nothing is invoked. -/
  | cannot_parse : RunEffect
  /-- Line 230: the call `(*shell_builtins_functions[i])(args)`. -/
  | builtin (f : Handler) (args : List Slot) : RunEffect
  /-- Line 234: the call `shell_exec(args)`. -/
  | exec (args : List Slot) : RunEffect
  /-- A read of a slot that was never written, or of a table entry that does not exist. -/
  | undefined : RunEffect
  deriving DecidableEq, Repr

/-- Lines 228-234: the `for` loop over the table from index `i` on, then `shell_exec`;
the first argument bounds the number of iterations left. -/
def shell_run_loop (args : List Slot) (command_name : List Char) : Nat → Nat → RunEffect
  | 0, _ => RunEffect.exec args
  | fuel + 1, i =>
    if i < get_number_of_shell_builtins then
      match shell_builtins[i]?, shell_builtins_functions[i]? with
      | some name, some f =>
        if command_name = name then RunEffect.builtin f args
        else shell_run_loop args command_name fuel (i + 1)
      | _, _ => RunEffect.undefined
    else RunEffect.exec args

/-- The function `shell_run` (lines 220-235); `strcmp(a, b) == 0` is equality of strings. -/
def shell_run (args : List Slot) : RunEffect :=
  match arg args 0 with
  | Slot.null => RunEffect.cannot_parse
  | Slot.uninit => RunEffect.undefined
  | Slot.str command_name =>
    shell_run_loop args command_name get_number_of_shell_builtins 0

/-! ## The builtin `head` -/

/-- An open descriptor as `shell_head` uses it: the bytes that successive `read` calls
of one byte deliver, what the `read` after the last byte returns, and what `close`
returns. -/
structure Input where
  /-- The bytes delivered, one per successful `read`. -/
  bytes : List Nat
  /-- Whether the `read` after the last byte returns -1 (an error) instead of 0. -/
  read_fails : Bool
  /-- Whether `close` returns -1. -/
  close_fails : Bool

/-- What `shell_head` reads from its surroundings.  Bytes are natural numbers below 256. -/
structure HeadEnv where
  /-- Standard input. -/
  stdin : Input
  /-- The call `open(path, O_RDONLY)`: the descriptor, `none` when it returns -1. -/
  open_file : List Char → Option Input
  /-- The 32-bit pattern held by the local `int c` before the first `read`. -/
  c_init : Nat

/-- What `shell_head` did. -/
structure HeadResult where
  /-- The bytes written to standard output. -/
  output : List Nat
  /-- The number of bytes taken from the input. -/
  consumed : Nat
  /-- Whether `shell_perror("head")` was called. -/
  perror : Bool
  deriving DecidableEq, Repr

/-- Digits of `atoi`: the value of the longest run of decimal digits at the front. -/
def atoi_digits : List Char → Int → Int
  | [], acc => acc
  | c :: cs, acc =>
    if '0' ≤ c ∧ c ≤ '9' then atoi_digits cs (acc * 10 + ((c.toNat : Int) - 48)) else acc

/-- The value `strtol(s, NULL, 10)` of the C library: white space, an optional sign,
then decimal digits up to the first other character; a value outside `long` (64 bits)
is replaced by `LONG_MIN` or `LONG_MAX`. -/
def strtol (s : List Char) : Int :=
  let value : Int :=
    match s.dropWhile (fun c => c = ' ' ∨ (9 ≤ c.toNat ∧ c.toNat ≤ 13)) with
    | '-' :: cs => - atoi_digits cs 0
    | '+' :: cs => atoi_digits cs 0
    | cs => atoi_digits cs 0
  if value < -9223372036854775808 then -9223372036854775808
  else if value > 9223372036854775807 then 9223372036854775807
  else value

/-- The conversion of a `long` to a 32-bit `int`: the value modulo 2^32, in the range
from -2^31 to 2^31 - 1. -/
def to_int (v : Int) : Int :=
  (v + 2147483648) % 4294967296 - 2147483648

/-- The C library function `atoi` as glibc defines it: `(int) strtol(s, NULL, 10)`. -/
def atoi (s : List Char) : Int :=
  to_int (strtol s)

/-- The pattern of `EOF` (-1) in a 32-bit `int`. -/
def EOF_pattern : Nat := 4294967295

/-- Lines 499-515: the read loop on the bytes still to come from the input.  A `read`
of one byte replaces the low byte of `c` (little-endian).  When the bytes are exhausted
the `read` returns -1 (`read_fails`: `shell_perror`, `break`) or 0 (`break`). -/
def shell_head_loop (number_of_lines_to_print : Int) (read_fails : Bool) :
    List Nat → Nat → Int → List Nat → Nat → HeadResult
  | [], _, _, output, consumed =>
    if read_fails then
      { output := output, consumed := consumed, perror := true }
    else
      { output := output, consumed := consumed, perror := false }
  | b :: rest, c, number_of_printed_lines, output, consumed =>
    let c := c / 256 * 256 + b % 256
    let output := output ++ [c % 256]
    let number_of_printed_lines :=
      if c % 256 = 10 then number_of_printed_lines + 1 else number_of_printed_lines
    if number_of_printed_lines = number_of_lines_to_print ∨ c = EOF_pattern then
      { output := output, consumed := consumed + 1, perror := false }
    else
      shell_head_loop number_of_lines_to_print read_fails rest c number_of_printed_lines
        output (consumed + 1)

/-- Lines 491-521 of `shell_head`: the test of the descriptor, the read loop and, for a
descriptor other than standard input, the `close`. -/
def shell_head_run (c_init : Nat) (number_of_lines_to_print : Int) (from_stdin : Bool)
    (input : Option Input) : HeadResult :=
  match input with
  | none => { output := [], consumed := 0, perror := true }
  | some inp =>
    let r := shell_head_loop number_of_lines_to_print inp.read_fails inp.bytes c_init 0 [] 0
    if from_stdin = false ∧ inp.close_fails = true then { r with perror := true } else r

/-- The function `shell_head` (lines 474-522); `none` when it reads a slot of `args`
that was never written. -/
def shell_head (env : HeadEnv) (args : List Slot) : Option HeadResult :=
  match arg args 1 with
  | Slot.uninit => none
  | Slot.null => some (shell_head_run env.c_init 10 true (some env.stdin))
  | Slot.str a1 =>
    if a1 = ['-', 'n'] then
      match arg args 2, arg args 3 with
      | Slot.uninit, _ => none
      | _, Slot.uninit => none
      | Slot.null, Slot.null => some (shell_head_run env.c_init 10 true (some env.stdin))
      | Slot.null, Slot.str file =>
        some (shell_head_run env.c_init 10 false (env.open_file file))
      | Slot.str number_of_lines, Slot.null =>
        some (shell_head_run env.c_init (atoi number_of_lines) true (some env.stdin))
      | Slot.str number_of_lines, Slot.str file =>
        some (shell_head_run env.c_init (atoi number_of_lines) false (env.open_file file))
    else some (shell_head_run env.c_init 10 false (env.open_file a1))

/-! ## Notions used to state the properties -/

/-- The byte of the newline character. -/
def NEWLINE : Nat := 10

/-- The first `n` lines of a byte sequence: its shortest prefix that holds `n` newline
bytes, the whole sequence when it holds fewer. -/
def first_lines : Nat → List Nat → List Nat
  | 0, _ => []
  | _ + 1, [] => []
  | n + 1, b :: rest =>
    if b = NEWLINE then b :: first_lines n rest else b :: first_lines (n + 1) rest

/-- A line made of the given strings, each wrapped in double quotes, joined by single
spaces. -/
def quote_join (ts : List (List Char)) : List Char :=
  [' '].intercalate (ts.map fun t => '"' :: t ++ ['"'])

/-- The maximal runs of non-space characters of a line, from left to right. -/
def nonspace_runs (l : List Char) : List (List Char) :=
  (l.splitOn ' ').filter fun t => t ≠ []

/-- Every run of spaces replaced by a single space. -/
def collapse_spaces : List Char → List Char
  | [] => []
  | c :: cs =>
    if c = ' ' ∧ cs.head? = some ' ' then collapse_spaces cs else c :: collapse_spaces cs

/-- Leading and trailing spaces removed. -/
def trim_spaces (l : List Char) : List Char :=
  (l.dropWhile fun c => c = ' ').rdropWhile fun c => c = ' '

/-- The lines that are a sequence of complete tokens: built from separating spaces,
quoted spans with both of their quotes, and unquoted tokens (a backslash token or a
plain one: a character other than a space and a double quote, then any characters other
than a space) ended by a space. -/
inductive CompleteTokens : List Char → Prop where
  | nil : CompleteTokens []
  | space (p : List Char) : CompleteTokens p → CompleteTokens (' ' :: p)
  | quoted (q p : List Char) : '"' ∉ q → CompleteTokens p →
      CompleteTokens ('"' :: q ++ '"' :: p)
  | word (c : Char) (w p : List Char) : c ≠ ' ' → c ≠ '"' → ' ' ∉ w → CompleteTokens p →
      CompleteTokens (c :: w ++ ' ' :: p)

/-- Whether the loop ended because its guard failed (the whole line was scanned),
as opposed to the `break` of line 178. -/
def Outcome.is_done : Outcome → Bool
  | Outcome.done _ => true
  | _ => false

/-- The states in which control reaches the head of the `while` loop of
`shell_separate_line` on a given line. -/
inductive LoopHead (line : List Char) : SepState → Prop where
  | entry : LoopHead line sep_init
  | iter {s s1 : SepState} : LoopHead line s → s.position < line.length →
      loop_body line s = Ctl.next s1 → LoopHead line s1

/-! ## List-level description of the tokenizer (used in proofs) -/

/-- The state after a token `t` has been stored and the cursor moved to `position`
(the effect of lines 205-214). -/
def push (s : SepState) (t : List Char) (position : Nat) : SepState :=
  if s.parts_array_position + 1 ≥ s.parts_array_buffer_size then
    { parts := realloc (s.parts.set s.parts_array_position (Slot.str t))
        (s.parts_array_buffer_size + LINE_PARTS_BUFF_SIZE)
      parts_array_position := s.parts_array_position + 1
      parts_array_buffer_size := s.parts_array_buffer_size + LINE_PARTS_BUFF_SIZE
      position := position }
  else
    { parts := s.parts.set s.parts_array_position (Slot.str t)
      parts_array_position := s.parts_array_position + 1
      parts_array_buffer_size := s.parts_array_buffer_size
      position := position }

/-- The relation between the variables and the block that every loop head satisfies. -/
def Inv (s : SepState) : Prop :=
  s.parts.length = s.parts_array_buffer_size ∧
  s.parts_array_buffer_size =
    LINE_PARTS_BUFF_SIZE * (s.parts_array_position / LINE_PARTS_BUFF_SIZE + 1)

/-- The tokens found in the rest of a line, in order, and whether the scan stopped
at a quote that is never closed. -/
def lex : List Char → List (List Char) × Bool
  | [] => ([], false)
  | c :: cs =>
    if c = ' ' then lex cs
    else if c = '"' then
      match h : cs.dropWhile (fun x => x != '"') with
      | [] => ([], true)
      | _ :: rest =>
        have : rest.length < cs.length + 1 := by
          have h1 := (List.dropWhile_suffix (l := cs) (fun x => x != '"')).length_le
          rw [h, List.length_cons] at h1
          omega
        ((cs.takeWhile (fun x => x != '"')) :: (lex rest).1, (lex rest).2)
    else if c = '\\' then
      have : (cs.dropWhile (fun x => x != ' ')).length < cs.length + 1 := by
        have h1 := (List.dropWhile_suffix (l := cs) (fun x => x != ' ')).length_le
        omega
      ((cs.takeWhile (fun x => x != ' ')) :: (lex (cs.dropWhile (fun x => x != ' '))).1,
        (lex (cs.dropWhile (fun x => x != ' '))).2)
    else
      have : (cs.dropWhile (fun x => x != ' ')).length < cs.length + 1 := by
        have h1 := (List.dropWhile_suffix (l := cs) (fun x => x != ' ')).length_le
        omega
      ((c :: cs.takeWhile (fun x => x != ' ')) :: (lex (cs.dropWhile (fun x => x != ' '))).1,
        (lex (cs.dropWhile (fun x => x != ' '))).2)
termination_by l => l.length

/-- What the loop leaves behind when started in `s` on a rest with tokens `toks`. -/
def LoopPost (s s1 : SepState) (toks : List (List Char)) (failed : Bool) : Prop :=
  Inv s1 ∧
  s1.parts_array_position = s.parts_array_position + toks.length ∧
  s1.parts.take s1.parts_array_position =
    (if failed then
      (s.parts.take s.parts_array_position ++ toks.map Slot.str).set 0 Slot.null
    else s.parts.take s.parts_array_position ++ toks.map Slot.str)

/-! ## Lemmas on the inner scans -/

theorem scan_until_aux_eq (stop : Char) (l : List Char) :
    ∀ (fuel position : Nat), l.length - position ≤ fuel →
      scan_until_aux stop l fuel position =
        position + ((l.drop position).takeWhile (fun x => x != stop)).length := by
  intro fuel
  induction fuel with
  | zero =>
    intro position h
    have h1 : l.length ≤ position := by omega
    simp [scan_until_aux, List.drop_eq_nil_of_le h1]
  | succ n ih =>
    intro position h
    unfold scan_until_aux
    by_cases hp : position < l.length
    · have hd : l.drop position = l[position] :: l.drop (position + 1) :=
        List.drop_eq_getElem_cons hp
      simp only [char_at, List.getElem?_eq_getElem hp]
      by_cases hc : l[position] = stop
      · simp [hd, hc]
      · rw [hd, List.takeWhile_cons]
        simp only [ne_eq, hc, not_false_eq_true, if_true]
        rw [ih (position + 1) (by omega)]
        simp [hc]
        omega
    · have h1 : l.length ≤ position := by omega
      simp [char_at, List.getElem?_eq_none h1, List.drop_eq_nil_of_le h1]

theorem scan_until_eq (stop : Char) (l : List Char) (position : Nat) :
    scan_until stop l position =
      position + ((l.drop position).takeWhile (fun x => x != stop)).length :=
  scan_until_aux_eq stop l _ position (le_refl _)

theorem take_length_takeWhile (p : Char → Bool) (cs : List Char) :
    cs.take (cs.takeWhile p).length = cs.takeWhile p := by
  induction cs with
  | nil => simp
  | cons c cs ih =>
    rw [List.takeWhile_cons]
    split
    · simp [ih]
    · simp

theorem drop_length_takeWhile (p : Char → Bool) (cs : List Char) :
    cs.drop (cs.takeWhile p).length = cs.dropWhile p := by
  induction cs with
  | nil => simp
  | cons c cs ih =>
    rw [List.takeWhile_cons, List.dropWhile_cons]
    split
    · simp [ih]
    · simp

/-! ## Lemmas on the block and the invariant -/

theorem Inv.lt {s : SepState} (h : Inv s) :
    s.parts_array_position < s.parts_array_buffer_size := by
  obtain ⟨_, h2⟩ := h
  simp only [LINE_PARTS_BUFF_SIZE] at h2
  omega

theorem Inv.lt_length {s : SepState} (h : Inv s) :
    s.parts_array_position < s.parts.length := by
  have := h.lt
  rw [h.1]
  exact this

theorem sep_init_inv : Inv sep_init := by
  simp [Inv, sep_init, LINE_PARTS_BUFF_SIZE]

theorem push_position (s : SepState) (t : List Char) (p : Nat) :
    (push s t p).position = p := by
  unfold push
  split <;> rfl

theorem push_parts_array_position (s : SepState) (t : List Char) (p : Nat) :
    (push s t p).parts_array_position = s.parts_array_position + 1 := by
  unfold push
  split <;> rfl

theorem push_inv {s : SepState} (h : Inv s) (t : List Char) (p : Nat) : Inv (push s t p) := by
  have hlt := h.lt
  obtain ⟨h1, h2⟩ := h
  unfold push Inv
  simp only [LINE_PARTS_BUFF_SIZE] at h2 ⊢
  split
  · refine ⟨?_, ?_⟩
    · simp [realloc, h1]
    · simp only
      omega
  · refine ⟨?_, ?_⟩
    · simp [h1]
    · simp only
      omega

theorem push_take {s : SepState} (h : Inv s) (t : List Char) (p : Nat) :
    (push s t p).parts.take (s.parts_array_position + 1) =
      s.parts.take s.parts_array_position ++ [Slot.str t] := by
  have hlt := h.lt_length
  have key : (s.parts.set s.parts_array_position (Slot.str t)).take (s.parts_array_position + 1) =
      s.parts.take s.parts_array_position ++ [Slot.str t] := by
    rw [List.set_eq_take_append_cons_drop, if_pos hlt]
    have hl : (s.parts.take s.parts_array_position).length = s.parts_array_position := by
      simp only [List.length_take]
      omega
    rw [List.take_append_eq_append_take, hl]
    simp [List.take_take]
  unfold push
  split
  · simp only [realloc]
    rw [List.take_append_of_le_length, List.take_take]
    · rw [← key]
      congr 1
      have := h.1
      simp only [LINE_PARTS_BUFF_SIZE]
      omega
    · simp only [List.length_take, List.length_set, LINE_PARTS_BUFF_SIZE]
      have := h.1
      omega
  · exact key

theorem store_part_eq (l : List Char) {s : SepState} (h : Inv s) (position start : Nat)
    (e : Int) :
    store_part l s position start e =
      Ctl.next (push s ((l.drop start).take (e - start + 1).toNat) position) := by
  have hlt := h.lt_length
  unfold store_part push
  simp only [write_slot, hlt, if_true]
  split <;> rfl

/-! ## Unfolding equations of `lex` -/

theorem lex_nil : lex [] = ([], false) := by
  rw [lex]

theorem lex_space (cs : List Char) : lex (' ' :: cs) = lex cs := by
  rw [lex]
  simp

theorem lex_quote_open (cs : List Char) (h : cs.dropWhile (fun x => x != '"') = []) :
    lex ('"' :: cs) = ([], true) := by
  rw [lex]
  simp only [Char.reduceEq, if_false, if_true]
  split
  · rfl
  · next hh => rw [h] at hh; cases hh

theorem lex_quote_closed (cs rest : List Char) (d : Char)
    (h : cs.dropWhile (fun x => x != '"') = d :: rest) :
    lex ('"' :: cs) = ((cs.takeWhile (fun x => x != '"')) :: (lex rest).1, (lex rest).2) := by
  rw [lex]
  simp only [Char.reduceEq, if_false, if_true]
  split
  · next hh => rw [h] at hh; cases hh
  · next hh =>
    rw [h] at hh
    cases hh
    rfl

theorem lex_backslash (cs : List Char) :
    lex ('\\' :: cs) =
      ((cs.takeWhile (fun x => x != ' ')) :: (lex (cs.dropWhile (fun x => x != ' '))).1,
        (lex (cs.dropWhile (fun x => x != ' '))).2) := by
  rw [lex]
  simp

theorem lex_other (c : Char) (cs : List Char) (h1 : c ≠ ' ') (h2 : c ≠ '"') (h3 : c ≠ '\\') :
    lex (c :: cs) =
      ((c :: cs.takeWhile (fun x => x != ' ')) :: (lex (cs.dropWhile (fun x => x != ' '))).1,
        (lex (cs.dropWhile (fun x => x != ' '))).2) := by
  rw [lex]
  simp [h1, h2, h3]

/-! ## One iteration of the loop, read on the rest of the line -/

theorem drop_cons_facts {l : List Char} {p : Nat} {c : Char} {cs : List Char}
    (hd : l.drop p = c :: cs) :
    p < l.length ∧ l[p]? = some c ∧ l.drop (p + 1) = cs := by
  have hp : p < l.length := by
    by_contra hn
    rw [List.drop_eq_nil_of_le (by omega)] at hd
    cases hd
  have h2 := List.drop_eq_getElem_cons hp
  rw [hd] at h2
  injection h2 with h3 h4
  refine ⟨hp, ?_, h4.symm⟩
  rw [List.getElem?_eq_getElem hp, h3]

theorem getElem?_eq_head?_drop (l : List Char) (q : Nat) : l[q]? = (l.drop q).head? := by
  simp [List.head?_drop]

theorem loop_body_space {l : List Char} {s : SepState} {cs : List Char}
    (hd : l.drop s.position = ' ' :: cs) :
    loop_body l s = Ctl.next { s with position := s.position + 1 } := by
  obtain ⟨_, hc, _⟩ := drop_cons_facts hd
  simp [loop_body, char_at, hc]

theorem loop_body_quote_open {l : List Char} {s : SepState} {cs : List Char}
    (hd : l.drop s.position = '"' :: cs) (hinv : Inv s)
    (h : cs.dropWhile (fun x => x != '"') = []) :
    loop_body l s =
      Ctl.brk { s with parts := s.parts.set 0 Slot.null, position := l.length } := by
  obtain ⟨hp, hc, hcs⟩ := drop_cons_facts hd
  have hq : l.drop (s.position + 1 + (cs.takeWhile (fun x => x != '"')).length) = [] := by
    rw [← List.drop_drop, hcs, drop_length_takeWhile, h]
  have hlen : s.position + 1 + (cs.takeWhile (fun x => x != '"')).length = l.length := by
    have h1 := congrArg List.length hcs
    have h2 := congrArg List.length (List.takeWhile_append_dropWhile (fun x => x != '"') cs)
    rw [h] at h2
    simp at h1 h2
    omega
  have h0 : 0 < s.parts.length := by
    have := hinv.lt_length
    omega
  rw [hlen] at hq
  simp only [loop_body, char_at, hc, scan_until_eq, hcs, Char.reduceEq, if_false, if_true,
    getElem?_eq_head?_drop l, hq, List.head?_nil, write_slot, h0, hlen]

theorem loop_body_quote_closed {l : List Char} {s : SepState} {cs rest : List Char} {d : Char}
    (hd : l.drop s.position = '"' :: cs) (hinv : Inv s)
    (h : cs.dropWhile (fun x => x != '"') = d :: rest) :
    loop_body l s =
      Ctl.next (push s (cs.takeWhile (fun x => x != '"'))
        (s.position + 1 + (cs.takeWhile (fun x => x != '"')).length + 1)) := by
  obtain ⟨hp, hc, hcs⟩ := drop_cons_facts hd
  have hq : l.drop (s.position + 1 + (cs.takeWhile (fun x => x != '"')).length) = d :: rest := by
    rw [← List.drop_drop, hcs, drop_length_takeWhile, h]
  simp only [loop_body, char_at, hc, scan_until_eq, hcs, Char.reduceEq, if_false, if_true,
    getElem?_eq_head?_drop l, hq, List.head?_cons, store_part_eq l hinv]
  congr 2
  have : ((((s.position + 1 + (cs.takeWhile (fun x => x != '"')).length : Nat) : Int) - 1
      - ((s.position + 1 : Nat) : Int) + 1).toNat) = (cs.takeWhile (fun x => x != '"')).length := by
    omega
  rw [this, take_length_takeWhile]

theorem loop_body_backslash {l : List Char} {s : SepState} {cs : List Char}
    (hd : l.drop s.position = '\\' :: cs) (hinv : Inv s) :
    loop_body l s =
      Ctl.next (push s (cs.takeWhile (fun x => x != ' '))
        (s.position + 1 + (cs.takeWhile (fun x => x != ' ')).length)) := by
  obtain ⟨hp, hc, hcs⟩ := drop_cons_facts hd
  simp only [loop_body, char_at, hc, scan_until_eq, hcs, Char.reduceEq, if_false, if_true,
    store_part_eq l hinv]
  congr 2
  have : ((((s.position + 1 + (cs.takeWhile (fun x => x != ' ')).length : Nat) : Int) - 1
      - ((s.position + 1 : Nat) : Int) + 1).toNat) = (cs.takeWhile (fun x => x != ' ')).length := by
    omega
  rw [this, take_length_takeWhile]

theorem loop_body_other {l : List Char} {s : SepState} {c : Char} {cs : List Char}
    (hd : l.drop s.position = c :: cs) (hinv : Inv s)
    (h1 : c ≠ ' ') (h2 : c ≠ '"') (h3 : c ≠ '\\') :
    loop_body l s =
      Ctl.next (push s (c :: cs.takeWhile (fun x => x != ' '))
        (s.position + 1 + (cs.takeWhile (fun x => x != ' ')).length)) := by
  obtain ⟨hp, hc, hcs⟩ := drop_cons_facts hd
  have htw : (c :: cs).takeWhile (fun x => x != ' ') = c :: cs.takeWhile (fun x => x != ' ') := by
    rw [List.takeWhile_cons]
    simp [h1]
  simp only [loop_body, char_at, hc, scan_until_eq, hd, htw, h1, h2, h3, if_false,
    store_part_eq l hinv, List.length_cons]
  have e1 : s.position + ((cs.takeWhile (fun x => x != ' ')).length + 1) =
      s.position + 1 + (cs.takeWhile (fun x => x != ' ')).length := by omega
  rw [e1]
  congr 2
  have : ((((s.position + 1 + (cs.takeWhile (fun x => x != ' ')).length : Nat) : Int) - 1
      - ((s.position : Nat) : Int) + 1).toNat) = (cs.takeWhile (fun x => x != ' ')).length + 1 := by
    omega
  rw [this, List.take_succ_cons, take_length_takeWhile]

/-! ## The loop computes `lex` -/

theorem loopPost_push {s s1 : SepState} (hinv : Inv s) (t : List Char) (p : Nat)
    {toks : List (List Char)} {failed : Bool} (h : LoopPost (push s t p) s1 toks failed) :
    LoopPost s s1 (t :: toks) failed := by
  obtain ⟨h1, h2, h3⟩ := h
  refine ⟨h1, ?_, ?_⟩
  · rw [h2, push_parts_array_position, List.length_cons]
    omega
  · rw [h3, push_parts_array_position, push_take hinv]
    simp

theorem sep_loop_lex (l : List Char) :
    ∀ (n fuel : Nat) (s : SepState), l.length - s.position ≤ n → n ≤ fuel → Inv s →
      ∃ s1, sep_loop l fuel s =
          (if (lex (l.drop s.position)).2 then Outcome.broke s1 else Outcome.done s1) ∧
        LoopPost s s1 (lex (l.drop s.position)).1 (lex (l.drop s.position)).2 := by
  intro n
  induction n with
  | zero =>
    intro fuel s hn _ hinv
    have hle : l.length ≤ s.position := by omega
    have hnot : ¬ s.position < l.length := by omega
    refine ⟨s, ?_, hinv, ?_, ?_⟩
    · rw [List.drop_eq_nil_of_le hle, lex_nil]
      cases fuel <;> simp [sep_loop, hnot]
    · rw [List.drop_eq_nil_of_le hle, lex_nil]
      simp
    · rw [List.drop_eq_nil_of_le hle, lex_nil]
      simp
  | succ n ih =>
    intro fuel s hn hf hinv
    by_cases hlt : s.position < l.length
    · obtain ⟨f, rfl⟩ : ∃ f, fuel = f + 1 := ⟨fuel - 1, by omega⟩
      have hd : l.drop s.position = l[s.position] :: l.drop (s.position + 1) :=
        List.drop_eq_getElem_cons hlt
      generalize l[s.position] = c at hd
      generalize hcs : l.drop (s.position + 1) = cs at hd
      -- a token `t` was stored and the cursor moved to `p`
      have step : ∀ (t : List Char) (p : Nat) (rest : List Char),
          loop_body l s = Ctl.next (push s t p) → l.drop p = rest → s.position < p →
          lex (c :: cs) = (t :: (lex rest).1, (lex rest).2) →
          ∃ s1, sep_loop l (f + 1) s =
              (if (lex (c :: cs)).2 then Outcome.broke s1 else Outcome.done s1) ∧
            LoopPost s s1 (lex (c :: cs)).1 (lex (c :: cs)).2 := by
        intro t p rest hb hr hp hl
        obtain ⟨s1, e1, post⟩ := ih f (push s t p) (by rw [push_position]; omega) (by omega)
          (push_inv hinv t p)
        rw [push_position, hr] at e1 post
        refine ⟨s1, ?_, ?_⟩
        · rw [sep_loop, if_pos hlt, hb, hl]
          exact e1
        · rw [hl]
          exact loopPost_push hinv t p post
      rw [hd]
      by_cases h1 : c = ' '
      · subst h1
        obtain ⟨s1, e1, post⟩ := ih f { s with position := s.position + 1 }
          (by simp only; omega) (by omega) hinv
        simp only [hcs] at e1 post
        refine ⟨s1, ?_, ?_⟩
        · rw [sep_loop, if_pos hlt, loop_body_space hd, lex_space]
          exact e1
        · rw [lex_space]
          exact post
      · by_cases h2 : c = '"'
        · subst h2
          cases hdw : cs.dropWhile (fun x => x != '"') with
          | nil =>
            refine ⟨{ s with parts := s.parts.set 0 Slot.null, position := l.length }, ?_, ?_⟩
            · rw [sep_loop, if_pos hlt, loop_body_quote_open hd hinv hdw,
                lex_quote_open cs hdw]
              rfl
            · rw [lex_quote_open cs hdw]
              refine ⟨?_, ?_, ?_⟩
              · obtain ⟨i1, i2⟩ := hinv
                exact ⟨by simpa using i1, i2⟩
              · simp
              · simp [List.set_take]
          | cons d rest =>
            refine step _ _ rest (loop_body_quote_closed hd hinv hdw) ?_ (by omega)
              (lex_quote_closed cs rest d hdw)
            have : l.drop (s.position + 1 + (cs.takeWhile (fun x => x != '"')).length) =
                d :: rest := by
              rw [← List.drop_drop, hcs, drop_length_takeWhile, hdw]
            rw [← List.drop_drop, this]
            rfl
        · by_cases h3 : c = '\\'
          · subst h3
            refine step _ _ _ (loop_body_backslash hd hinv) ?_ (by omega) (lex_backslash cs)
            rw [← List.drop_drop, hcs, drop_length_takeWhile]
          · refine step _ _ _ (loop_body_other hd hinv h1 h2 h3) ?_ (by omega)
              (lex_other c cs h1 h2 h3)
            rw [← List.drop_drop, hcs, drop_length_takeWhile]
    · have hle : l.length ≤ s.position := by omega
      refine ⟨s, ?_, hinv, ?_, ?_⟩
      · rw [List.drop_eq_nil_of_le hle, lex_nil]
        cases fuel <;> simp [sep_loop, hlt]
      · rw [List.drop_eq_nil_of_le hle, lex_nil]
        simp
      · rw [List.drop_eq_nil_of_le hle, lex_nil]
        simp

theorem sep_run_lex (l : List Char) :
    ∃ s1, sep_run l = (if (lex l).2 then Outcome.broke s1 else Outcome.done s1) ∧
      LoopPost sep_init s1 (lex l).1 (lex l).2 := by
  have h := sep_loop_lex l l.length l.length sep_init (by simp) (le_refl _) sep_init_inv
  simpa [sep_run, sep_init] using h

/-- The block returned for a line, described by `lex`. -/
theorem sep_final_lex (l : List Char) :
    ∃ s2, sep_final l = some s2 ∧
      s2.parts_array_position = (lex l).1.length ∧
      s2.parts.length = s2.parts_array_buffer_size ∧
      s2.parts_array_buffer_size =
        LINE_PARTS_BUFF_SIZE * ((lex l).1.length / LINE_PARTS_BUFF_SIZE + 1) ∧
      s2.parts.take ((lex l).1.length + 1) =
        (if (lex l).2 then ((lex l).1.map Slot.str).set 0 Slot.null
          else (lex l).1.map Slot.str) ++ [Slot.null] := by
  obtain ⟨s1, e1, hinv, hpos, htake⟩ := sep_run_lex l
  have hlt := hinv.lt_length
  have hpos' : s1.parts_array_position = (lex l).1.length := by
    simpa [sep_init] using hpos
  have htake' : s1.parts.take s1.parts_array_position =
      (if (lex l).2 then ((lex l).1.map Slot.str).set 0 Slot.null
        else (lex l).1.map Slot.str) := by
    simpa [sep_init] using htake
  refine ⟨{ s1 with parts := s1.parts.set s1.parts_array_position Slot.null }, ?_, hpos', ?_, ?_, ?_⟩
  · unfold sep_final
    rw [e1]
    split <;> simp [sep_finish, write_slot, hlt]
  · simpa using hinv.1
  · simp only
    rw [← hpos']
    exact hinv.2
  · simp only
    rw [← hpos', List.set_eq_take_append_cons_drop, if_pos hlt]
    have hl : (s1.parts.take s1.parts_array_position).length = s1.parts_array_position := by
      simp only [List.length_take]
      omega
    rw [List.take_append_eq_append_take, hl, htake']
    simp [List.take_take, ← htake']

theorem shell_separate_line_lex (l : List Char) :
    ∃ parts, shell_separate_line l = some parts ∧
      parts.take ((lex l).1.length + 1) =
        (if (lex l).2 then ((lex l).1.map Slot.str).set 0 Slot.null
          else (lex l).1.map Slot.str) ++ [Slot.null] := by
  obtain ⟨s2, e, _, _, _, h⟩ := sep_final_lex l
  exact ⟨s2.parts, by simp [shell_separate_line, e], h⟩

/-! ## `lex` on lines of particular shapes -/

theorem takeWhile_ne_of_not_mem {a : Char} {t : List Char} (h : a ∉ t) (rest : List Char) :
    (t ++ a :: rest).takeWhile (fun x => x != a) = t := by
  rw [List.takeWhile_append_of_pos]
  · simp
  · intro b hb
    have : b ≠ a := fun e => h (e ▸ hb)
    simpa using this

theorem dropWhile_ne_of_not_mem {a : Char} {t : List Char} (h : a ∉ t) (rest : List Char) :
    (t ++ a :: rest).dropWhile (fun x => x != a) = a :: rest := by
  rw [List.dropWhile_append_of_pos]
  · simp
  · intro b hb
    have : b ≠ a := fun e => h (e ▸ hb)
    simpa using this

theorem takeWhile_ne_self {a : Char} {t : List Char} (h : a ∉ t) :
    t.takeWhile (fun x => x != a) = t := by
  rw [List.takeWhile_eq_self_iff]
  intro b hb
  have : b ≠ a := fun e => h (e ▸ hb)
  simpa using this

theorem dropWhile_ne_nil {a : Char} {t : List Char} (h : a ∉ t) :
    t.dropWhile (fun x => x != a) = [] := by
  rw [List.dropWhile_eq_nil_iff]
  intro b hb
  have : b ≠ a := fun e => h (e ▸ hb)
  simpa using this

theorem lex_all_spaces (l : List Char) (h : ∀ c ∈ l, c = ' ') : lex l = ([], false) := by
  induction l with
  | nil => exact lex_nil
  | cons c cs ih =>
    have hc : c = ' ' := h c (List.mem_cons_self _ _)
    subst hc
    rw [lex_space]
    exact ih fun d hd => h d (List.mem_cons_of_mem _ hd)

theorem lex_quoted (t rest : List Char) (h : '"' ∉ t) :
    lex ('"' :: t ++ '"' :: rest) = (t :: (lex rest).1, (lex rest).2) := by
  have h1 := lex_quote_closed (t ++ '"' :: rest) rest '"' (dropWhile_ne_of_not_mem h rest)
  rw [takeWhile_ne_of_not_mem h] at h1
  exact h1

theorem quote_join_cons (t : List Char) (ts : List (List Char)) :
    quote_join (t :: ts) =
      '"' :: t ++ '"' :: (match ts with | [] => [] | _ :: _ => ' ' :: quote_join ts) := by
  cases ts with
  | nil => simp [quote_join, List.intercalate]
  | cons u us => simp [quote_join, List.intercalate]

theorem lex_quote_join (ts : List (List Char)) (h : ∀ t ∈ ts, '"' ∉ t) :
    lex (quote_join ts) = (ts, false) := by
  induction ts with
  | nil => simp [quote_join, List.intercalate, lex_nil]
  | cons t ts ih =>
    have ht := h t (List.mem_cons_self _ _)
    have ih' := ih fun u hu => h u (List.mem_cons_of_mem _ hu)
    rw [quote_join_cons, lex_quoted _ _ ht]
    cases ts with
    | nil => simp [lex_nil]
    | cons u us =>
      simp only
      rw [lex_space, ih']

theorem lex_backslash_run (r : List Char) (h : ' ' ∉ r) : lex ('\\' :: r) = ([r], false) := by
  rw [lex_backslash, takeWhile_ne_self h, dropWhile_ne_nil h, lex_nil]

/-! ## Sequences of complete tokens -/

theorem getLast?_dropWhile_cons (q : Char → Bool) {cs rest : List Char} {d : Char}
    (h : cs.dropWhile q = d :: rest) : cs.getLast? = (d :: rest).getLast? := by
  have h1 := List.takeWhile_append_dropWhile q cs
  rw [h] at h1
  rw [← h1, List.getLast?_append_of_ne_nil _ (List.cons_ne_nil _ _)]

theorem head_dropWhile_ne (a : Char) {cs rest : List Char} {d : Char}
    (h : cs.dropWhile (fun x => x != a) = d :: rest) : d = a := by
  have h1 := List.head?_dropWhile_not (fun x => x != a) cs
  rw [h] at h1
  simpa using h1

theorem getLast?_tail_of_ne {c : Char} {cs : List Char}
    (h : (c :: cs).getLast? = some ' ') (hc : c ≠ ' ') : cs.getLast? = some ' ' := by
  cases cs with
  | nil =>
    simp at h
    exact absurd h hc
  | cons d ds => simpa using h

theorem not_mem_takeWhile_ne (a : Char) (cs : List Char) :
    a ∉ cs.takeWhile (fun x => x != a) := by
  intro h
  have := List.mem_takeWhile_imp h
  simp at this

theorem lex_word (c : Char) (w rest : List Char) (h1 : c ≠ ' ') (h2 : c ≠ '"')
    (hw : ' ' ∉ w) :
    (lex (c :: w ++ ' ' :: rest)).2 = (lex rest).2 := by
  have e : c :: w ++ ' ' :: rest = c :: (w ++ ' ' :: rest) := rfl
  rw [e]
  by_cases h3 : c = '\\'
  · subst h3
    rw [lex_backslash, dropWhile_ne_of_not_mem hw, lex_space]
  · rw [lex_other c _ h1 h2 h3, dropWhile_ne_of_not_mem hw, lex_space]

/-- After a sequence of complete tokens the scan of the rest of the line starts afresh:
whether the line runs into an unterminated quote is decided by the rest alone. -/
theorem lex_completeTokens_append {p : List Char} (h : CompleteTokens p) (r : List Char) :
    (lex (p ++ r)).2 = (lex r).2 := by
  induction h with
  | nil => rfl
  | space p _ ih =>
    rw [List.cons_append, lex_space]
    exact ih
  | quoted q p hq _ ih =>
    have e : ('"' :: q ++ '"' :: p) ++ r = '"' :: q ++ '"' :: (p ++ r) := by simp
    rw [e, lex_quoted q (p ++ r) hq]
    exact ih
  | word c w p h1 h2 hw _ ih =>
    have e : (c :: w ++ ' ' :: p) ++ r = c :: w ++ ' ' :: (p ++ r) := by simp
    rw [e, lex_word c w (p ++ r) h1 h2 hw]
    exact ih

/-- The rules of `CompleteTokens` leave out no line of the intended kind: a line that is
empty or ends in a space, and whose scan meets no unterminated quote, is a sequence of
complete tokens. -/
theorem completeTokens_of_lex :
    ∀ (n : Nat) (p : List Char), p.length ≤ n → (lex p).2 = false →
      (p = [] ∨ p.getLast? = some ' ') → CompleteTokens p := by
  intro n
  induction n with
  | zero =>
    intro p hn _ _
    have : p = [] := List.eq_nil_of_length_eq_zero (by omega)
    subst this
    exact CompleteTokens.nil
  | succ n ih =>
    intro p hn hok hend
    cases p with
    | nil => exact CompleteTokens.nil
    | cons c cs =>
      have hlast : (c :: cs).getLast? = some ' ' := by
        rcases hend with h | h
        · cases h
        · exact h
      have hlen : cs.length ≤ n := by
        simp only [List.length_cons] at hn
        omega
      have tail_end : ∀ (d : Char) (rest : List Char),
          (d :: rest).getLast? = some ' ' → (rest = [] ∨ rest.getLast? = some ' ') := by
        intro d rest h
        cases rest with
        | nil => exact Or.inl rfl
        | cons e es => exact Or.inr (by simpa using h)
      by_cases h1 : c = ' '
      · subst h1
        rw [lex_space] at hok
        exact CompleteTokens.space cs (ih cs hlen hok (tail_end ' ' cs hlast))
      · have hcs : cs.getLast? = some ' ' := getLast?_tail_of_ne hlast h1
        by_cases h2 : c = '"'
        · subst h2
          cases hdw : cs.dropWhile (fun x => x != '"') with
          | nil =>
            rw [lex_quote_open cs hdw] at hok
            cases hok
          | cons d rest =>
            have hd : d = '"' := head_dropWhile_ne '"' hdw
            subst hd
            have hsplit := List.takeWhile_append_dropWhile (fun x => x != '"') cs
            rw [hdw] at hsplit
            have hl : rest.length ≤ n := by
              have := congrArg List.length hsplit
              simp only [List.length_append, List.length_cons] at this
              omega
            rw [lex_quote_closed cs rest '"' hdw] at hok
            have hend2 : rest = [] ∨ rest.getLast? = some ' ' := by
              rw [getLast?_dropWhile_cons _ hdw] at hcs
              exact tail_end '"' rest hcs
            have e : '"' :: cs = '"' :: cs.takeWhile (fun x => x != '"') ++ '"' :: rest := by
              rw [List.cons_append, hsplit]
            rw [e]
            exact CompleteTokens.quoted _ rest (not_mem_takeWhile_ne '"' cs)
              (ih rest hl hok hend2)
        · have hmem : ' ' ∈ cs := List.mem_of_getLast?_eq_some hcs
          cases hdw : cs.dropWhile (fun x => x != ' ') with
          | nil =>
            rw [List.dropWhile_eq_nil_iff] at hdw
            have := hdw ' ' hmem
            simp at this
          | cons d rest =>
            have hd : d = ' ' := head_dropWhile_ne ' ' hdw
            subst hd
            have hsplit := List.takeWhile_append_dropWhile (fun x => x != ' ') cs
            rw [hdw] at hsplit
            have hl : rest.length ≤ n := by
              have := congrArg List.length hsplit
              simp only [List.length_append, List.length_cons] at this
              omega
            have hw := not_mem_takeWhile_ne ' ' cs
            have e : c :: cs = c :: cs.takeWhile (fun x => x != ' ') ++ ' ' :: rest := by
              rw [List.cons_append, hsplit]
            have hok2 : (lex rest).2 = false := by
              rw [e, lex_word c _ rest h1 h2 hw] at hok
              exact hok
            have hend2 : rest = [] ∨ rest.getLast? = some ' ' := by
              rw [getLast?_dropWhile_cons _ hdw] at hcs
              exact tail_end ' ' rest hcs
            rw [e]
            exact CompleteTokens.word c _ rest h1 h2 hw (ih rest hl hok2 hend2)

/-! ## Every iteration keeps the invariant and moves the cursor -/

theorem length_takeWhile_le_of_drop {l cs : List Char} {p : Nat}
    (hcs : l.drop (p + 1) = cs) (hp : p < l.length) (q : Char → Bool) :
    p + 1 + (cs.takeWhile q).length ≤ l.length := by
  have h1 := congrArg List.length hcs
  have h2 := congrArg List.length (List.takeWhile_append_dropWhile q cs)
  simp only [List.length_drop, List.length_append] at h1 h2
  omega

theorem loop_body_cases {l : List Char} {s : SepState} (hinv : Inv s)
    (hlt : s.position < l.length) :
    ∃ s1, (loop_body l s = Ctl.next s1 ∨ loop_body l s = Ctl.brk s1) ∧ Inv s1 ∧
      s.position < s1.position ∧ s1.position ≤ l.length ∧
      s1.parts_array_position ≤ s.parts_array_position + 1 := by
  have hd : l.drop s.position = l[s.position] :: l.drop (s.position + 1) :=
    List.drop_eq_getElem_cons hlt
  generalize l[s.position] = c at hd
  generalize hcs : l.drop (s.position + 1) = cs at hd
  by_cases h1 : c = ' '
  · subst h1
    exact ⟨_, Or.inl (loop_body_space hd), hinv, by simp, by simp only; omega, by simp⟩
  · by_cases h2 : c = '"'
    · subst h2
      cases hdw : cs.dropWhile (fun x => x != '"') with
      | nil =>
        refine ⟨_, Or.inr (loop_body_quote_open hd hinv hdw), ?_, hlt, le_refl _,
          by simp⟩
        obtain ⟨i1, i2⟩ := hinv
        exact ⟨by simpa using i1, i2⟩
      | cons d rest =>
        refine ⟨_, Or.inl (loop_body_quote_closed hd hinv hdw), push_inv hinv _ _, ?_, ?_, ?_⟩
        · rw [push_position]
          omega
        · rw [push_position]
          have h1 := congrArg List.length hcs
          have h2 := congrArg List.length
            (List.takeWhile_append_dropWhile (fun x => x != '"') cs)
          rw [hdw] at h2
          simp only [List.length_drop, List.length_append, List.length_cons] at h1 h2
          omega
        · rw [push_parts_array_position]
    · by_cases h3 : c = '\\'
      · subst h3
        refine ⟨_, Or.inl (loop_body_backslash hd hinv), push_inv hinv _ _, ?_, ?_, ?_⟩
        · rw [push_position]
          omega
        · rw [push_position]
          exact length_takeWhile_le_of_drop hcs hlt _
        · rw [push_parts_array_position]
      · refine ⟨_, Or.inl (loop_body_other hd hinv h1 h2 h3), push_inv hinv _ _, ?_, ?_, ?_⟩
        · rw [push_position]
          omega
        · rw [push_position]
          exact length_takeWhile_le_of_drop hcs hlt _
        · rw [push_parts_array_position]

theorem loopHead_inv {l : List Char} {s : SepState} (h : LoopHead l s) : Inv s := by
  induction h with
  | entry => exact sep_init_inv
  | iter _ hlt hb ih =>
    obtain ⟨s2, hc, hinv2, _⟩ := loop_body_cases ih hlt
    rcases hc with hc | hc
    · rw [hc] at hb
      injection hb with hb
      rw [← hb]
      exact hinv2
    · rw [hc] at hb
      cases hb

/-- The counters stay small: the cursor never passes the end of the line, every stored
token used up at least one character, and the capacity exceeds the number of stored
tokens by at most `LINE_PARTS_BUFF_SIZE`.  So on a line shorter than `INT_MAX - 16` no
`int` of the function overflows. -/
theorem loopHead_counters_bounded {l : List Char} {s : SepState} (h : LoopHead l s) :
    s.position ≤ l.length ∧ s.parts_array_position ≤ s.position ∧
      s.parts_array_buffer_size ≤ s.parts_array_position + LINE_PARTS_BUFF_SIZE := by
  have hcap : s.parts_array_buffer_size ≤ s.parts_array_position + LINE_PARTS_BUFF_SIZE := by
    have := (loopHead_inv h).2
    simp only [LINE_PARTS_BUFF_SIZE] at this ⊢
    omega
  refine ⟨?_, ?_, hcap⟩
  · induction h with
    | entry => simp [sep_init]
    | iter hs hlt hb _ =>
      obtain ⟨s2, hc, _, _, hle, _⟩ := loop_body_cases (loopHead_inv hs) hlt
      rcases hc with hc | hc
      · rw [hc] at hb
        injection hb with hb
        rw [← hb]
        exact hle
      · rw [hc] at hb
        cases hb
  · induction h with
    | entry => simp [sep_init]
    | iter hs hlt hb ih =>
      obtain ⟨s2, hc, hinv2, hadv, _, hpos⟩ := loop_body_cases (loopHead_inv hs) hlt
      have ih' := ih (by
        have := (loopHead_inv hs).2
        simp only [LINE_PARTS_BUFF_SIZE] at this ⊢
        omega)
      rcases hc with hc | hc
      · rw [hc] at hb
        injection hb with hb
        rw [← hb]
        omega
      · rw [hc] at hb
        cases hb

/-- The state in which the loop ends was reached through loop heads: either the guard
failed at a loop head, or the body run from a loop head left by `break`. -/
theorem sep_loop_exit (l : List Char) :
    ∀ (fuel : Nat) (s : SepState), LoopHead l s →
      (∀ s1, sep_loop l fuel s = Outcome.done s1 →
        LoopHead l s1 ∧ ¬ s1.position < l.length) ∧
      (∀ s1, sep_loop l fuel s = Outcome.broke s1 →
        ∃ s0, LoopHead l s0 ∧ s0.position < l.length ∧ loop_body l s0 = Ctl.brk s1) := by
  intro fuel
  induction fuel with
  | zero =>
    intro s hs
    by_cases hlt : s.position < l.length
    · simp [sep_loop, hlt]
    · simp only [sep_loop, hlt, if_false, Outcome.done.injEq]
      refine ⟨?_, ?_⟩
      · intro s1 e
        subst e
        exact ⟨hs, hlt⟩
      · intro s1 e
        cases e
  | succ n ih =>
    intro s hs
    by_cases hlt : s.position < l.length
    · simp only [sep_loop, hlt, if_true]
      cases hb : loop_body l s with
      | next s2 =>
        exact ih s2 (LoopHead.iter hs hlt hb)
      | brk s2 =>
        refine ⟨?_, ?_⟩
        · intro s1 e
          cases e
        · intro s1 e
          injection e with e
          subst e
          exact ⟨s, hs, hlt, hb⟩
      | fault =>
        refine ⟨?_, ?_⟩ <;> intro s1 e <;> cases e
    · simp only [sep_loop, hlt, if_false, Outcome.done.injEq]
      refine ⟨?_, ?_⟩
      · intro s1 e
        subst e
        exact ⟨hs, hlt⟩
      · intro s1 e
        cases e

/-! ## Reading the returned block -/

theorem argv_of_take (ts : List (List Char)) :
    ∀ parts : List Slot, parts.take (ts.length + 1) = ts.map Slot.str ++ [Slot.null] →
      argv parts = some ts := by
  induction ts with
  | nil =>
    intro parts h
    cases parts with
    | nil => simp at h
    | cons a as =>
      simp at h
      subst h
      rfl
  | cons t ts ih =>
    intro parts h
    cases parts with
    | nil => simp at h
    | cons a as =>
      simp only [List.length_cons, List.take_succ_cons, List.map_cons, List.cons_append,
        List.cons.injEq] at h
      obtain ⟨h1, h2⟩ := h
      subst h1
      simp [argv, ih as h2]

theorem head_of_take {parts front : List Slot} {n : Nat} {a : Slot}
    (h : parts.take (n + 1) = front ++ [Slot.null]) (hf : (front ++ [Slot.null])[0]? = some a) :
    parts[0]? = some a := by
  rw [← h] at hf
  simpa [List.getElem?_take] using hf

theorem argv_of_head_null {parts : List Slot} (h : parts[0]? = some Slot.null) :
    argv parts = some [] := by
  cases parts with
  | nil => simp at h
  | cons a as =>
    simp at h
    subst h
    rfl

theorem head_failed (toks : List (List Char)) :
    (((toks.map Slot.str).set 0 Slot.null) ++ [Slot.null])[0]? = some Slot.null := by
  cases toks <;> simp

theorem sep_run_is_done (l : List Char) : (sep_run l).is_done = !(lex l).2 := by
  obtain ⟨s1, e, _⟩ := sep_run_lex l
  rw [e]
  cases (lex l).2 <;> rfl

/-- A line that is empty or ends in a space, and on which the loop of
`shell_separate_line` runs to the end of the line without the `break` of line 178, is a
sequence of complete tokens; conversely the loop runs to the end of every sequence of
complete tokens. -/
theorem completeTokens_iff_is_done (p : List Char) (hend : p = [] ∨ p.getLast? = some ' ') :
    CompleteTokens p ↔ (sep_run p).is_done = true := by
  constructor
  · intro h
    have := lex_completeTokens_append h []
    rw [List.append_nil, lex_nil] at this
    rw [sep_run_is_done, this]
    rfl
  · intro h
    have hok : (lex p).2 = false := by
      have := sep_run_is_done p
      rw [h] at this
      simpa using this.symm
    exact completeTokens_of_lex p.length p (le_refl _) hok hend

/-! ## Runs of non-space characters -/

theorem rdropWhile_cons_eq (p : Char → Bool) (c : Char) (cs : List Char) :
    List.rdropWhile p (c :: cs) =
      if List.rdropWhile p cs = [] ∧ p c = true then [] else c :: List.rdropWhile p cs := by
  simp only [List.rdropWhile, List.reverse_cons, List.dropWhile_append]
  by_cases h : List.dropWhile p cs.reverse = []
  · simp [h]
    by_cases hc : p c = true
    · simp [hc]
    · simp [hc]
  · simp [h]

theorem nonspace_runs_nil : nonspace_runs [] = [] := by
  simp [nonspace_runs]

theorem nonspace_runs_space (cs : List Char) :
    nonspace_runs (' ' :: cs) = nonspace_runs cs := by
  simp [nonspace_runs, List.splitOn]

theorem nonspace_runs_cons (c : Char) (cs : List Char) (hc : c ≠ ' ') :
    nonspace_runs (c :: cs) =
      (c :: cs.takeWhile (fun x => x != ' ')) ::
        nonspace_runs (cs.dropWhile (fun x => x != ' ')) := by
  have hsplit := List.takeWhile_append_dropWhile (fun x => x != ' ') cs
  have hw : ∀ x ∈ c :: cs.takeWhile (fun x => x != ' '),
      ¬ ((fun y => y == ' ') x = true) := by
    intro x hx
    rcases List.mem_cons.1 hx with h | h
    · simpa [h] using hc
    · have := List.mem_takeWhile_imp h
      simpa using this
  cases hdw : cs.dropWhile (fun x => x != ' ') with
  | nil =>
    rw [hdw, List.append_nil] at hsplit
    rw [hsplit, nonspace_runs_nil]
    rw [hsplit] at hw
    simp only [nonspace_runs, List.splitOn]
    rw [List.splitOnP_eq_single _ _ hw]
    simp
  | cons d rest =>
    have hd : d = ' ' := head_dropWhile_ne ' ' hdw
    subst hd
    rw [nonspace_runs_space]
    have e : c :: cs = (c :: cs.takeWhile (fun x => x != ' ')) ++ ' ' :: rest := by
      rw [List.cons_append, ← hdw, hsplit]
    simp only [nonspace_runs, List.splitOn]
    rw [e, List.splitOnP_first _ _ hw ' ' (by simp)]
    simp

theorem lex_eq_nonspace_runs :
    ∀ (n : Nat) (l : List Char), l.length ≤ n → '"' ∉ l → '\\' ∉ l →
      lex l = (nonspace_runs l, false) := by
  intro n
  induction n with
  | zero =>
    intro l hn _ _
    have : l = [] := List.eq_nil_of_length_eq_zero (by omega)
    subst this
    rw [lex_nil, nonspace_runs_nil]
  | succ n ih =>
    intro l hn hq hb
    cases l with
    | nil => rw [lex_nil, nonspace_runs_nil]
    | cons c cs =>
      have hq' : '"' ∉ cs := fun h => hq (List.mem_cons_of_mem _ h)
      have hb' : '\\' ∉ cs := fun h => hb (List.mem_cons_of_mem _ h)
      have hlen : cs.length ≤ n := by
        simp only [List.length_cons] at hn
        omega
      by_cases h1 : c = ' '
      · subst h1
        rw [lex_space, nonspace_runs_space]
        exact ih cs hlen hq' hb'
      · have h2 : c ≠ '"' := fun e => hq (e ▸ List.mem_cons_self _ _)
        have h3 : c ≠ '\\' := fun e => hb (e ▸ List.mem_cons_self _ _)
        have hsub : cs.dropWhile (fun x => x != ' ') ⊆ cs := List.dropWhile_subset _
        have hl2 : (cs.dropWhile (fun x => x != ' ')).length ≤ n :=
          le_trans (List.dropWhile_suffix (l := cs) (fun x => x != ' ')).length_le hlen
        rw [lex_other c cs h1 h2 h3, nonspace_runs_cons c cs h1,
          ih _ hl2 (fun h => hq' (hsub h)) (fun h => hb' (hsub h))]

theorem nonspace_runs_mem :
    ∀ (n : Nat) (l : List Char), l.length ≤ n → ∀ t ∈ nonspace_runs l, t ≠ [] ∧ ' ' ∉ t := by
  intro n
  induction n with
  | zero =>
    intro l hn t ht
    have : l = [] := List.eq_nil_of_length_eq_zero (by omega)
    subst this
    simp [nonspace_runs_nil] at ht
  | succ n ih =>
    intro l hn t ht
    cases l with
    | nil => simp [nonspace_runs_nil] at ht
    | cons c cs =>
      have hlen : cs.length ≤ n := by
        simp only [List.length_cons] at hn
        omega
      by_cases h1 : c = ' '
      · subst h1
        rw [nonspace_runs_space] at ht
        exact ih cs hlen t ht
      · rw [nonspace_runs_cons c cs h1] at ht
        rcases List.mem_cons.1 ht with h | h
        · subst h
          refine ⟨List.cons_ne_nil _ _, ?_⟩
          intro hm
          rcases List.mem_cons.1 hm with e | e
          · exact h1 e.symm
          · have := List.mem_takeWhile_imp e
            simp at this
        · exact ih _ (le_trans
            (List.dropWhile_suffix (l := cs) (fun x => x != ' ')).length_le hlen) t h

theorem nonspace_runs_eq_nil_iff (l : List Char) :
    nonspace_runs l = [] ↔ ∀ x ∈ l, x = ' ' := by
  induction l with
  | nil => simp [nonspace_runs_nil]
  | cons c cs ih =>
    by_cases h1 : c = ' '
    · subst h1
      rw [nonspace_runs_space, ih]
      simp
    · rw [nonspace_runs_cons c cs h1]
      simp [h1]

/-! ## Rejoining the runs -/

theorem intercalate_cons_cons (sep : List Char) (c : Char) (w : List Char)
    (rest : List (List Char)) :
    sep.intercalate ((c :: w) :: rest) = c :: sep.intercalate (w :: rest) := by
  cases rest <;> simp [List.intercalate]

theorem collapse_spaces_cons_of_ne (c : Char) (cs : List Char) (h : c ≠ ' ') :
    collapse_spaces (c :: cs) = c :: collapse_spaces cs := by
  simp [collapse_spaces, h]

theorem collapse_space_rdropWhile (ds : List Char) (h : ¬ ∀ x ∈ ds, x = ' ') :
    collapse_spaces (' ' :: List.rdropWhile (fun c => c = ' ') ds) =
      ' ' :: collapse_spaces
        (List.rdropWhile (fun c => c = ' ') (ds.dropWhile fun c => c = ' ')) := by
  induction ds with
  | nil => simp at h
  | cons e es ih =>
    by_cases he : e = ' '
    · subst he
      have hes : ¬ ∀ x ∈ es, x = ' ' := by
        intro hall
        apply h
        intro x hx
        rcases List.mem_cons.1 hx with e1 | e1
        · exact e1
        · exact hall x e1
      have hne : List.rdropWhile (fun c => decide (c = ' ')) es ≠ [] := by
        rw [Ne, List.rdropWhile_eq_nil_iff]
        simpa using hes
      rw [rdropWhile_cons_eq]
      simp only [hne, false_and, if_false]
      rw [show collapse_spaces (' ' :: ' ' :: List.rdropWhile (fun c => decide (c = ' ')) es) =
        collapse_spaces (' ' :: List.rdropWhile (fun c => decide (c = ' ')) es) by
          rw [collapse_spaces]; simp]
      rw [ih hes]
      simp
    · rw [rdropWhile_cons_eq]
      simp only [decide_eq_true_eq, he, and_false, if_false]
      rw [collapse_spaces]
      simp [he]
      rw [rdropWhile_cons_eq]
      simp [he]

theorem rejoin_runs :
    ∀ (n : Nat) (l : List Char), l.length ≤ n →
      [' '].intercalate (nonspace_runs l) = collapse_spaces (trim_spaces l) := by
  intro n
  induction n with
  | zero =>
    intro l hn
    have : l = [] := List.eq_nil_of_length_eq_zero (by omega)
    subst this
    simp [nonspace_runs_nil, trim_spaces, collapse_spaces, List.intercalate]
  | succ n ih =>
    intro l hn
    cases l with
    | nil => simp [nonspace_runs_nil, trim_spaces, collapse_spaces, List.intercalate]
    | cons c cs =>
      have hlen : cs.length ≤ n := by
        simp only [List.length_cons] at hn
        omega
      by_cases h1 : c = ' '
      · subst h1
        rw [nonspace_runs_space, ih cs hlen]
        simp [trim_spaces]
      · have htrim : trim_spaces (c :: cs) = c :: List.rdropWhile (fun c => c = ' ') cs := by
          simp only [trim_spaces]
          rw [List.dropWhile_cons_of_neg (by simpa using h1), rdropWhile_cons_eq]
          simp [h1]
        rw [htrim, collapse_spaces_cons_of_ne c _ h1]
        cases cs with
        | nil => simp [nonspace_runs_cons c [] h1, nonspace_runs_nil, List.intercalate,
            collapse_spaces]
        | cons d ds =>
          have hlen2 : ds.length ≤ n := by
            simp only [List.length_cons] at hlen
            omega
          by_cases h2 : d = ' '
          · subst h2
            have hr : nonspace_runs (c :: ' ' :: ds) = [c] :: nonspace_runs ds := by
              rw [nonspace_runs_cons c _ h1]
              simp [nonspace_runs_space]
            rw [hr]
            by_cases hall : ∀ x ∈ ds, x = ' '
            · have e1 : nonspace_runs ds = [] := (nonspace_runs_eq_nil_iff ds).2 hall
              have e2 : List.rdropWhile (fun c => decide (c = ' ')) (' ' :: ds) = [] := by
                rw [List.rdropWhile_eq_nil_iff]
                intro x hx
                rcases List.mem_cons.1 hx with e | e
                · simp [e]
                · simp [hall x e]
              rw [e1, e2]
              simp [List.intercalate, collapse_spaces]
            · have hne : nonspace_runs ds ≠ [] := fun e => hall ((nonspace_runs_eq_nil_iff ds).1 e)
              have hne2 : List.rdropWhile (fun c => decide (c = ' ')) ds ≠ [] := by
                rw [Ne, List.rdropWhile_eq_nil_iff]
                simpa using hall
              rw [rdropWhile_cons_eq]
              simp only [hne2, false_and, if_false]
              rw [collapse_space_rdropWhile ds hall]
              have := ih ds hlen2
              simp only [trim_spaces] at this
              rw [← this]
              obtain ⟨w, ws, hw⟩ := List.exists_cons_of_ne_nil hne
              rw [hw]
              simp [List.intercalate]
          · have hr1 := nonspace_runs_cons c (d :: ds) h1
            have hr2 := nonspace_runs_cons d ds h2
            have htw : (d :: ds).takeWhile (fun x => x != ' ') =
                d :: ds.takeWhile (fun x => x != ' ') := by
              rw [List.takeWhile_cons]
              simp [h2]
            have hdw : (d :: ds).dropWhile (fun x => x != ' ') =
                ds.dropWhile (fun x => x != ' ') := by
              rw [List.dropWhile_cons]
              simp [h2]
            rw [htw, hdw] at hr1
            rw [hr1, intercalate_cons_cons, ← hr2, ih (d :: ds) hlen]
            have htrim2 : trim_spaces (d :: ds) =
                d :: List.rdropWhile (fun c => c = ' ') ds := by
              simp only [trim_spaces]
              rw [List.dropWhile_cons_of_neg (by simpa using h2), rdropWhile_cons_eq]
              simp [h2]
            rw [htrim2, rdropWhile_cons_eq]
            simp [h2]

/-! ## Properties of the tokenizer -/

/-- C1: for every line `p ++ '"' ++ s` where `s` holds no double quote and `p` is a
sequence of complete tokens (empty, or any number of tokens and spaces, in particular
every such sequence that ends in a space), `shell_separate_line` returns a block whose
element 0 is `NULL`; a consumer of the vector sees none of the tokens stored before. -/
theorem unterminated_quote_yields_failure (p s : List Char) (hp : CompleteTokens p)
    (hs : '"' ∉ s) :
    ∃ parts, shell_separate_line (p ++ '"' :: s) = some parts ∧
      parts[0]? = some Slot.null ∧ argv parts = some [] := by
  have hl : (lex (p ++ '"' :: s)).2 = true := by
    rw [lex_completeTokens_append hp, lex_quote_open s (dropWhile_ne_nil hs)]
  obtain ⟨parts, e, ht⟩ := shell_separate_line_lex (p ++ '"' :: s)
  rw [hl] at ht
  simp only [if_true] at ht
  have h0 : parts[0]? = some Slot.null := head_of_take ht (head_failed _)
  exact ⟨parts, e, h0, argv_of_head_null h0⟩

/-- Witness of C1 on the line made of `echo`, the quoted span `"a b"`, sixteen tokens
`x` (eighteen complete tokens, each followed by a space) and the unterminated `"abc`. -/
theorem unterminated_quote_yields_failure_witness :
    CompleteTokens
        (['e', 'c', 'h', 'o', ' ', '"', 'a', ' ', 'b', '"', ' '] ++
          (List.replicate 16 ['x', ' ']).flatten) ∧
      ('"' ∉ ['a', 'b', 'c']) ∧
      ((shell_separate_line
          (['e', 'c', 'h', 'o', ' ', '"', 'a', ' ', 'b', '"', ' '] ++
            (List.replicate 16 ['x', ' ']).flatten)).bind argv).map List.length = some 18 ∧
      ∃ parts,
        shell_separate_line
            ((['e', 'c', 'h', 'o', ' ', '"', 'a', ' ', 'b', '"', ' '] ++
              (List.replicate 16 ['x', ' ']).flatten) ++ '"' :: ['a', 'b', 'c']) =
          some parts ∧
        parts[0]? = some Slot.null ∧ argv parts = some [] :=
  have hp : CompleteTokens
      (['e', 'c', 'h', 'o', ' ', '"', 'a', ' ', 'b', '"', ' '] ++
        (List.replicate 16 ['x', ' ']).flatten) := by
    refine CompleteTokens.word 'e' ['c', 'h', 'o'] _ (by decide) (by decide) (by decide) ?_
    refine CompleteTokens.quoted ['a', ' ', 'b'] _ (by decide) ?_
    refine CompleteTokens.space _ ?_
    iterate 16
      refine CompleteTokens.word 'x' [] _ (by decide) (by decide) (by decide) ?_
    exact CompleteTokens.nil
  ⟨hp, by decide, by decide, unterminated_quote_yields_failure _ ['a', 'b', 'c'] hp (by decide)⟩

/-- C2: for every list `ts` of strings without a double quote, tokenizing the line that
wraps each element in double quotes and joins them with single spaces returns exactly
`ts`, in order, followed by `NULL`. -/
theorem quoting_round_trip (ts : List (List Char)) (h : ∀ t ∈ ts, '"' ∉ t) :
    ∃ parts, shell_separate_line (quote_join ts) = some parts ∧
      parts.take (ts.length + 1) = ts.map Slot.str ++ [Slot.null] ∧
      argv parts = some ts := by
  obtain ⟨parts, e, ht⟩ := shell_separate_line_lex (quote_join ts)
  rw [lex_quote_join ts h] at ht
  simp only [Bool.false_eq_true, if_false] at ht
  exact ⟨parts, e, ht, argv_of_take ts parts ht⟩

/-- Witness of C2 on eighteen strings: sixteen times `a b`, the empty string and `c\`. -/
theorem quoting_round_trip_witness :
    (∀ t ∈ List.replicate 16 ['a', ' ', 'b'] ++ [[], ['c', '\\']], '"' ∉ t) ∧
      (List.replicate 16 ['a', ' ', 'b'] ++ [[], ['c', '\\']]).length = 18 ∧
      ∃ parts,
        shell_separate_line (quote_join (List.replicate 16 ['a', ' ', 'b'] ++ [[], ['c', '\\']])) =
          some parts ∧
        parts.take ((List.replicate 16 ['a', ' ', 'b'] ++ [[], ['c', '\\']]).length + 1) =
          (List.replicate 16 ['a', ' ', 'b'] ++ [[], ['c', '\\']]).map Slot.str ++
            [Slot.null] ∧
        argv parts = some (List.replicate 16 ['a', ' ', 'b'] ++ [[], ['c', '\\']]) :=
  ⟨by decide, by decide,
    quoting_round_trip (List.replicate 16 ['a', ' ', 'b'] ++ [[], ['c', '\\']]) (by decide)⟩

/-- C3: for every line without a double quote and without a backslash,
`shell_separate_line` returns exactly the maximal runs of non-space characters of the
line, from left to right, followed by `NULL`; no token is empty or holds a space, and
the tokens rejoined with single spaces are the line with leading and trailing spaces
removed and every inner run of spaces collapsed to one. -/
theorem unquoted_line_yields_nonspace_runs (l : List Char) (hq : '"' ∉ l) (hb : '\\' ∉ l) :
    ∃ parts, shell_separate_line l = some parts ∧
      parts.take ((nonspace_runs l).length + 1) =
        (nonspace_runs l).map Slot.str ++ [Slot.null] ∧
      argv parts = some (nonspace_runs l) ∧
      (∀ t ∈ nonspace_runs l, t ≠ [] ∧ ' ' ∉ t) ∧
      [' '].intercalate (nonspace_runs l) = collapse_spaces (trim_spaces l) := by
  obtain ⟨parts, e, ht⟩ := shell_separate_line_lex l
  rw [lex_eq_nonspace_runs l.length l (le_refl _) hq hb] at ht
  simp only [Bool.false_eq_true, if_false] at ht
  exact ⟨parts, e, ht, argv_of_take _ parts ht, nonspace_runs_mem l.length l (le_refl _),
    rejoin_runs l.length l (le_refl _)⟩

/-- Witness of C3 on the line `  ab  c d `, whose runs are `ab`, `c` and `d`. -/
theorem unquoted_line_yields_nonspace_runs_witness :
    ('"' ∉ [' ', ' ', 'a', 'b', ' ', ' ', 'c', ' ', 'd', ' ']) ∧
      ('\\' ∉ [' ', ' ', 'a', 'b', ' ', ' ', 'c', ' ', 'd', ' ']) ∧
      nonspace_runs [' ', ' ', 'a', 'b', ' ', ' ', 'c', ' ', 'd', ' '] =
        [['a', 'b'], ['c'], ['d']] ∧
      collapse_spaces (trim_spaces [' ', ' ', 'a', 'b', ' ', ' ', 'c', ' ', 'd', ' ']) =
        ['a', 'b', ' ', 'c', ' ', 'd'] ∧
      ∃ parts, shell_separate_line [' ', ' ', 'a', 'b', ' ', ' ', 'c', ' ', 'd', ' '] =
          some parts ∧
        parts.take ((nonspace_runs [' ', ' ', 'a', 'b', ' ', ' ', 'c', ' ', 'd', ' ']).length
            + 1) =
          (nonspace_runs [' ', ' ', 'a', 'b', ' ', ' ', 'c', ' ', 'd', ' ']).map Slot.str ++
            [Slot.null] ∧
        argv parts = some (nonspace_runs [' ', ' ', 'a', 'b', ' ', ' ', 'c', ' ', 'd', ' ']) ∧
        (∀ t ∈ nonspace_runs [' ', ' ', 'a', 'b', ' ', ' ', 'c', ' ', 'd', ' '],
          t ≠ [] ∧ ' ' ∉ t) ∧
        [' '].intercalate (nonspace_runs [' ', ' ', 'a', 'b', ' ', ' ', 'c', ' ', 'd', ' ']) =
          collapse_spaces (trim_spaces [' ', ' ', 'a', 'b', ' ', ' ', 'c', ' ', 'd', ' ']) :=
  ⟨by decide, by decide, by decide, by decide,
    unquoted_line_yields_nonspace_runs [' ', ' ', 'a', 'b', ' ', ' ', 'c', ' ', 'd', ' ']
      (by decide) (by decide)⟩

/-- C4, as the code has it: for every line made of a backslash followed by a non-empty
run `r` of non-space characters, `shell_separate_line` returns exactly one token, and
that token is `r`: the backslash is stripped. -/
theorem backslash_run_is_one_token_without_backslash (r : List Char) (_hne : r ≠ [])
    (hsp : ' ' ∉ r) :
    ∃ parts, shell_separate_line ('\\' :: r) = some parts ∧
      parts.take 2 = [Slot.str r, Slot.null] ∧ argv parts = some [r] := by
  obtain ⟨parts, e, ht⟩ := shell_separate_line_lex ('\\' :: r)
  rw [lex_backslash_run r hsp] at ht
  simp only [Bool.false_eq_true, if_false] at ht
  exact ⟨parts, e, ht, argv_of_take [r] parts ht⟩

/-- Witness of the amended C4 on the line `\ab`. -/
theorem backslash_run_is_one_token_without_backslash_witness :
    (['a', 'b'] ≠ []) ∧ (' ' ∉ ['a', 'b']) ∧
      ∃ parts, shell_separate_line ('\\' :: ['a', 'b']) = some parts ∧
        parts.take 2 = [Slot.str ['a', 'b'], Slot.null] ∧ argv parts = some [['a', 'b']] :=
  ⟨by decide, by decide,
    backslash_run_is_one_token_without_backslash ['a', 'b'] (by decide) (by decide)⟩

/-- C4 as stated fails on the line `\a`: the single token returned is `a`, not `\a`. -/
theorem backslash_kept_counterexample :
    (shell_separate_line ['\\', 'a']).bind argv = some [['a']] ∧
      (shell_separate_line ['\\', 'a']).bind argv ≠ some [['\\', 'a']] := by
  decide

/-- C5, as the code has it: a quoted span ends at the next double quote, preceded by a
backslash or not.  On the line `"u\"v"` (no double quote in `u`, `v`) the first iteration
stores the token `u\` in slot 0 and leaves the cursor on the first character after the
backslash-preceded quote, and the rest `v"` is tokenized as ordinary input: when the rest
on its own is scanned to its end, the arguments returned are `u\` followed by the
arguments of the rest; when the rest runs into an unterminated quote, slot 0 is `NULL`
and no argument is returned. -/
theorem quoted_span_ends_at_escaped_quote (u v : List Char) (hu : '"' ∉ u) (_hv : '"' ∉ v) :
    loop_body ('"' :: u ++ '\\' :: '"' :: v ++ ['"']) sep_init =
        Ctl.next
          { parts := sep_init.parts.set 0 (Slot.str (u ++ ['\\']))
            parts_array_position := 1
            parts_array_buffer_size := LINE_PARTS_BUFF_SIZE
            position := u.length + 3 } ∧
      (∃ parts, shell_separate_line ('"' :: u ++ '\\' :: '"' :: v ++ ['"']) = some parts ∧
        (parts[0]? = some (Slot.str (u ++ ['\\'])) ∨ parts[0]? = some Slot.null)) ∧
      ((sep_run (v ++ ['"'])).is_done = true →
        ∃ ws, (shell_separate_line (v ++ ['"'])).bind argv = some ws ∧
          (shell_separate_line ('"' :: u ++ '\\' :: '"' :: v ++ ['"'])).bind argv =
            some ((u ++ ['\\']) :: ws)) ∧
      ((sep_run (v ++ ['"'])).is_done = false →
        (shell_separate_line ('"' :: u ++ '\\' :: '"' :: v ++ ['"'])).bind argv = some []) := by
  have hu' : '"' ∉ u ++ ['\\'] := by
    simp only [List.mem_append, List.mem_singleton, not_or]
    exact ⟨hu, by decide⟩
  have hline : '"' :: u ++ '\\' :: '"' :: v ++ ['"'] =
      '"' :: ((u ++ ['\\']) ++ '"' :: (v ++ ['"'])) := by simp
  have hl : lex ('"' :: u ++ '\\' :: '"' :: v ++ ['"']) =
      ((u ++ ['\\']) :: (lex (v ++ ['"'])).1, (lex (v ++ ['"'])).2) := by
    rw [hline]
    exact lex_quoted (u ++ ['\\']) (v ++ ['"']) hu'
  have hdone := sep_run_is_done (v ++ ['"'])
  obtain ⟨parts, e, ht⟩ := shell_separate_line_lex ('"' :: u ++ '\\' :: '"' :: v ++ ['"'])
  rw [hl] at ht
  refine ⟨?_, ⟨parts, e, ?_⟩, ?_, ?_⟩
  · have hd : List.drop sep_init.position ('"' :: u ++ '\\' :: '"' :: v ++ ['"']) =
        '"' :: ((u ++ ['\\']) ++ '"' :: (v ++ ['"'])) := by
      rw [hline]
      rfl
    rw [loop_body_quote_closed hd sep_init_inv (dropWhile_ne_of_not_mem hu' _),
      takeWhile_ne_of_not_mem hu']
    simp only [push, sep_init, LINE_PARTS_BUFF_SIZE, List.length_append, List.length_singleton]
    simp only [ge_iff_le, Nat.reduceLeDiff, if_false, Ctl.next.injEq, SepState.mk.injEq,
      true_and]
    omega
  · cases hf : (lex (v ++ ['"'])).2 with
    | true =>
      right
      rw [hf] at ht
      exact head_of_take ht (by simp)
    | false =>
      left
      rw [hf] at ht
      exact head_of_take ht (by simp)
  · intro hd
    have hf : (lex (v ++ ['"'])).2 = false := by
      rw [hd] at hdone
      simpa using hdone.symm
    obtain ⟨parts_r, e_r, ht_r⟩ := shell_separate_line_lex (v ++ ['"'])
    rw [hf] at ht ht_r
    simp only [Bool.false_eq_true, if_false] at ht ht_r
    refine ⟨(lex (v ++ ['"'])).1, ?_, ?_⟩
    · rw [e_r]
      exact argv_of_take _ _ ht_r
    · rw [e]
      exact argv_of_take ((u ++ ['\\']) :: (lex (v ++ ['"'])).1) parts ht
  · intro hd
    have hf : (lex (v ++ ['"'])).2 = true := by
      rw [hd] at hdone
      simpa using hdone.symm
    rw [hf] at ht
    rw [e]
    exact argv_of_head_null (head_of_take ht (by simp))

/-- Witness of the amended C5 on the line `"a\"b"`. -/
theorem quoted_span_ends_at_escaped_quote_witness :
    ('"' ∉ ['a']) ∧ ('"' ∉ ['b']) ∧ (sep_run (['b'] ++ ['"'])).is_done = true ∧
      (shell_separate_line ('"' :: ['a'] ++ '\\' :: '"' :: ['b'] ++ ['"'])).bind argv =
        some [['a', '\\'], ['b', '"']] ∧
      (loop_body ('"' :: ['a'] ++ '\\' :: '"' :: ['b'] ++ ['"']) sep_init =
        Ctl.next
          { parts := sep_init.parts.set 0 (Slot.str (['a'] ++ ['\\']))
            parts_array_position := 1
            parts_array_buffer_size := LINE_PARTS_BUFF_SIZE
            position := ['a'].length + 3 } ∧
      (∃ parts, shell_separate_line ('"' :: ['a'] ++ '\\' :: '"' :: ['b'] ++ ['"']) =
          some parts ∧
        (parts[0]? = some (Slot.str (['a'] ++ ['\\'])) ∨ parts[0]? = some Slot.null)) ∧
      ((sep_run (['b'] ++ ['"'])).is_done = true →
        ∃ ws, (shell_separate_line (['b'] ++ ['"'])).bind argv = some ws ∧
          (shell_separate_line ('"' :: ['a'] ++ '\\' :: '"' :: ['b'] ++ ['"'])).bind argv =
            some ((['a'] ++ ['\\']) :: ws)) ∧
      ((sep_run (['b'] ++ ['"'])).is_done = false →
        (shell_separate_line ('"' :: ['a'] ++ '\\' :: '"' :: ['b'] ++ ['"'])).bind argv =
          some [])) :=
  ⟨by decide, by decide, by decide, by decide,
    quoted_span_ends_at_escaped_quote ['a'] ['b'] (by decide) (by decide)⟩

/-- C5 as stated fails on the line `"a\"b"`: the tokens are `a\` and `b"`, not the single
token `a\"b`. -/
theorem escaped_quote_counterexample :
    (shell_separate_line ['"', 'a', '\\', '"', 'b', '"']).bind argv =
        some [['a', '\\'], ['b', '"']] ∧
      (shell_separate_line ['"', 'a', '\\', '"', 'b', '"']).bind argv ≠
        some [['a', '\\', '"', 'b']] := by
  decide

/-- C8: for every line that is empty or made of spaces only, `shell_separate_line`
returns a block whose first element is `NULL`, and `shell_run` on that block emits the
cannot-parse diagnostic and calls neither a builtin nor `shell_exec`. -/
theorem blank_line_is_not_dispatched (l : List Char) (h : ∀ c ∈ l, c = ' ') :
    ∃ parts, shell_separate_line l = some parts ∧ parts[0]? = some Slot.null ∧
      shell_run parts = RunEffect.cannot_parse := by
  obtain ⟨parts, e, ht⟩ := shell_separate_line_lex l
  rw [lex_all_spaces l h] at ht
  have h0 : parts[0]? = some Slot.null := head_of_take ht (by simp)
  refine ⟨parts, e, h0, ?_⟩
  cases parts with
  | nil => simp at h0
  | cons a as =>
    simp at h0
    subst h0
    rfl

/-- Witness of C8 on a line of three spaces. -/
theorem blank_line_is_not_dispatched_witness :
    (∀ c ∈ [' ', ' ', ' '], c = ' ') ∧
      ∃ parts, shell_separate_line [' ', ' ', ' '] = some parts ∧
        parts[0]? = some Slot.null ∧ shell_run parts = RunEffect.cannot_parse :=
  ⟨by decide, blank_line_is_not_dispatched [' ', ' ', ' '] (by decide)⟩

/-- C9, as the code has it: the block starts with 16 slots and grows by 16 slots each
time it becomes full.  When `shell_separate_line` returns with `n` tokens stored
(`NULL` sits at index `n`), the capacity is `16 * (n / 16 + 1)`, the least multiple of 16
above `n`: 16 for `n < 16`, 32 for `16 ≤ n < 32`, 48 for `32 ≤ n < 48`. -/
theorem capacity_grows_by_sixteen (l : List Char) :
    ∃ s, sep_final l = some s ∧
      s.parts.length = s.parts_array_buffer_size ∧
      s.parts_array_buffer_size =
        LINE_PARTS_BUFF_SIZE * (s.parts_array_position / LINE_PARTS_BUFF_SIZE + 1) ∧
      s.parts[s.parts_array_position]? = some Slot.null ∧
      ((sep_run l).is_done = true →
        ∃ toks, argv s.parts = some toks ∧ toks.length = s.parts_array_position) := by
  obtain ⟨s, e, hpos, hlen, hcap, htake⟩ := sep_final_lex l
  refine ⟨s, e, hlen, by rw [hpos]; exact hcap, ?_, ?_⟩
  · have h1 : (s.parts.take ((lex l).1.length + 1))[(lex l).1.length]? = some Slot.null := by
      rw [htake]
      split <;> simp [List.getElem?_append_right]
    rw [hpos]
    simpa [List.getElem?_take] using h1
  · intro hd
    have hok : (lex l).2 = false := by
      have := sep_run_is_done l
      rw [hd] at this
      simpa using this.symm
    rw [hok] at htake
    simp only [Bool.false_eq_true, if_false] at htake
    exact ⟨(lex l).1, argv_of_take _ _ htake, hpos.symm⟩

/-- C9 as stated fails on a line of 32 tokens: the capacity at return is 48, which is
not 16 times a power of two (the claim gives 64). -/
theorem capacity_doubling_counterexample :
    (sep_final (List.replicate 32 ['a', ' ']).flatten).map
        (fun s => (s.parts_array_position, s.parts_array_buffer_size, s.parts.length)) =
        some (32, 48, 48) ∧
      ¬ ∃ k : Nat, 48 = 16 * 2 ^ k := by
  refine ⟨by decide, ?_⟩
  rintro ⟨k, hk⟩
  have h3 : 2 ^ k = 3 := by omega
  have hk2 : k < 2 := by
    by_contra hge
    have : 2 ^ 2 ≤ 2 ^ k := Nat.pow_le_pow_right (by norm_num) (by omega)
    omega
  interval_cases k <;> simp at h3

/-- C10: on every line, at every head of the loop of `shell_separate_line` the number of
stored tokens is below the capacity, which is the real size of the block, and the body
run from there makes no store outside the block; the loop ends (at a loop head where the
guard fails, or by the `break` of a body run from a loop head), in a state where the
number of stored tokens is again below the capacity; and the final store of `NULL` is
inside the block. -/
theorem stored_tokens_below_capacity (l : List Char) :
    (∀ s, LoopHead l s →
      s.parts_array_position < s.parts_array_buffer_size ∧
      s.parts.length = s.parts_array_buffer_size ∧
      (s.position < l.length → loop_body l s ≠ Ctl.fault)) ∧
    (∃ s, ((sep_run l = Outcome.done s ∧ LoopHead l s ∧ ¬ s.position < l.length) ∨
        (sep_run l = Outcome.broke s ∧
          ∃ s0, LoopHead l s0 ∧ s0.position < l.length ∧ loop_body l s0 = Ctl.brk s)) ∧
      s.parts_array_position < s.parts_array_buffer_size ∧
      s.parts.length = s.parts_array_buffer_size) ∧
    (∃ s, sep_final l = some s ∧ s.parts[s.parts_array_position]? = some Slot.null) := by
  refine ⟨?_, ?_, ?_⟩
  · intro s hs
    have hinv := loopHead_inv hs
    refine ⟨hinv.lt, hinv.1, ?_⟩
    intro hlt
    obtain ⟨s1, hc, _, _⟩ := loop_body_cases hinv hlt
    rcases hc with hc | hc <;> rw [hc] <;> simp
  · obtain ⟨s1, e, hinv, _, _⟩ := sep_run_lex l
    have hexit := sep_loop_exit l l.length sep_init LoopHead.entry
    refine ⟨s1, ?_, hinv.lt, hinv.1⟩
    cases hf : (lex l).2 with
    | false =>
      rw [hf] at e
      simp only [Bool.false_eq_true, if_false] at e
      exact Or.inl ⟨e, hexit.1 s1 e⟩
    | true =>
      rw [hf] at e
      simp only [if_true] at e
      exact Or.inr ⟨e, hexit.2 s1 e⟩
  · obtain ⟨s, e, hpos, _, _, htake⟩ := sep_final_lex l
    refine ⟨s, e, ?_⟩
    have h1 : (s.parts.take ((lex l).1.length + 1))[(lex l).1.length]? = some Slot.null := by
      rw [htake]
      split <;> simp [List.getElem?_append_right]
    rw [hpos]
    simpa [List.getElem?_take] using h1

/-! ## Dispatch -/

theorem shell_run_eq (args : List Slot) (a : List Char) (h : arg args 0 = Slot.str a) :
    shell_run args =
      if a = ['c', 'd'] then RunEffect.builtin Handler.shell_cd args
      else if a = ['e', 'x', 'i', 't'] then RunEffect.builtin Handler.shell_exit args
      else if a = ['h', 'e', 'l', 'p'] then RunEffect.builtin Handler.shell_help args
      else if a = ['c', 'p'] then RunEffect.builtin Handler.shell_cp args
      else if a = ['p', 's'] then RunEffect.builtin Handler.shell_ps args
      else if a = ['h', 'e', 'a', 'd'] then RunEffect.builtin Handler.shell_head args
      else if a = ['h', 'i', 's', 't', 'o', 'r', 'y'] then
        RunEffect.builtin Handler.shell_history args
      else RunEffect.exec args := by
  unfold shell_run
  rw [h]
  simp only [get_number_of_shell_builtins, shell_builtins, shell_builtins_functions,
    List.length_cons, List.length_nil, shell_run_loop]
  simp

/-- C6: for every argument vector whose first element `a` is present, `shell_run` makes
exactly one call, with the full vector: the handler paired with a builtin name exactly
when `a` equals that name, and `shell_exec` exactly when `a` equals none of the seven
names (so `c`, `cdx` and `CD` go to `shell_exec`). -/
theorem shell_run_dispatches_by_exact_name (args : List Slot) (a : List Char)
    (h : arg args 0 = Slot.str a) :
    (∀ p ∈ [(['c', 'd'], Handler.shell_cd), (['e', 'x', 'i', 't'], Handler.shell_exit),
          (['h', 'e', 'l', 'p'], Handler.shell_help), (['c', 'p'], Handler.shell_cp),
          (['p', 's'], Handler.shell_ps), (['h', 'e', 'a', 'd'], Handler.shell_head),
          (['h', 'i', 's', 't', 'o', 'r', 'y'], Handler.shell_history)],
        (shell_run args = RunEffect.builtin p.2 args ↔ a = p.1) ∧
        ∀ other, shell_run args = RunEffect.builtin p.2 other → other = args) ∧
      (shell_run args = RunEffect.exec args ↔ a ∉ shell_builtins) ∧
      (∀ other, shell_run args = RunEffect.exec other → other = args) ∧
      ((∃ f, shell_run args = RunEffect.builtin f args) ∨
        shell_run args = RunEffect.exec args) ∧
      (a ∈ [['c'], ['c', 'd', 'x'], ['C', 'D']] → shell_run args = RunEffect.exec args) := by
  rw [shell_run_eq args a h]
  simp only [shell_builtins, List.mem_cons, List.mem_singleton, List.not_mem_nil, or_false,
    forall_eq_or_imp, forall_eq]
  by_cases h1 : a = ['c', 'd']
  · subst h1; simp
  by_cases h2 : a = ['e', 'x', 'i', 't']
  · subst h2; simp
  by_cases h3 : a = ['h', 'e', 'l', 'p']
  · subst h3; simp
  by_cases h4 : a = ['c', 'p']
  · subst h4; simp
  by_cases h5 : a = ['p', 's']
  · subst h5; simp
  by_cases h6 : a = ['h', 'e', 'a', 'd']
  · subst h6; simp
  by_cases h7 : a = ['h', 'i', 's', 't', 'o', 'r', 'y']
  · subst h7; simp
  simp only [h1, h2, h3, h4, h5, h6, h7, if_false]
  simp

/-- Witness of C6 on the vector of the line `cdx /tmp`. -/
theorem shell_run_dispatches_by_exact_name_witness :
    arg [Slot.str ['c', 'd', 'x'], Slot.str ['/', 't', 'm', 'p'], Slot.null] 0 =
        Slot.str ['c', 'd', 'x'] ∧
      shell_run [Slot.str ['c', 'd', 'x'], Slot.str ['/', 't', 'm', 'p'], Slot.null] =
        RunEffect.exec [Slot.str ['c', 'd', 'x'], Slot.str ['/', 't', 'm', 'p'], Slot.null] :=
  ⟨rfl,
    (shell_run_dispatches_by_exact_name
      [Slot.str ['c', 'd', 'x'], Slot.str ['/', 't', 'm', 'p'], Slot.null] ['c', 'd', 'x']
      rfl).2.2.2.2 (by decide)⟩

/-! ## The builtin `head` -/

theorem first_lines_pos_cons (n : Nat) (hn : 0 < n) (b : Nat) (rest : List Nat) :
    first_lines n (b :: rest) =
      b :: first_lines (if b = NEWLINE then n - 1 else n) rest := by
  obtain ⟨m, rfl⟩ : ∃ m, n = m + 1 := ⟨n - 1, by omega⟩
  simp only [first_lines]
  split <;> simp

/-- For a line count of at least one, the read loop prints the first lines of the input
and consumes exactly what it prints, provided the three high bytes of `c` are not all
ones (otherwise a byte 255 makes `c == EOF` true and ends the loop early). -/
theorem shell_head_loop_first_lines (n : Nat) (read_fails : Bool) :
    ∀ (bytes : List Nat) (c : Nat) (printed : Nat) (output : List Nat) (consumed : Nat),
      (∀ b ∈ bytes, b < 256) → c / 256 ≠ 16777215 → printed < n →
      (shell_head_loop (n : Int) read_fails bytes c (printed : Int) output consumed).output =
          output ++ first_lines (n - printed) bytes ∧
        (shell_head_loop (n : Int) read_fails bytes c (printed : Int) output consumed).consumed =
          consumed + (first_lines (n - printed) bytes).length := by
  intro bytes
  induction bytes with
  | nil =>
    intro c printed output consumed _ _ hp
    obtain ⟨m, hm⟩ : ∃ m, n - printed = m + 1 := ⟨n - printed - 1, by omega⟩
    cases read_fails <;> simp [shell_head_loop, hm, first_lines]
  | cons b rest ih =>
    intro c printed output consumed hb hc hp
    have hb256 : b < 256 := hb b (List.mem_cons_self _ _)
    have hrest : ∀ x ∈ rest, x < 256 := fun x hx => hb x (List.mem_cons_of_mem _ hx)
    have hlow : (c / 256 * 256 + b % 256) % 256 = b := by omega
    have hneof : c / 256 * 256 + b % 256 ≠ EOF_pattern := by
      simp only [EOF_pattern]
      omega
    rw [first_lines_pos_cons _ (by omega)]
    unfold shell_head_loop
    simp only [hlow, hneof, or_false]
    by_cases hnl : b = 10
    · simp only [hnl, NEWLINE, if_true]
      by_cases hlast : printed + 1 = n
      · have e : ((printed : Int) + 1 = (n : Int)) := by exact_mod_cast hlast
        have z : n - printed - 1 = 0 := by omega
        simp [e, z, first_lines]
      · have e : ¬ ((printed : Int) + 1 = (n : Int)) := by exact_mod_cast hlast
        obtain ⟨i1, i2⟩ := ih (c / 256 * 256 + 10 % 256) (printed + 1) (output ++ [10])
          (consumed + 1) hrest (by omega) (by omega)
        have z : n - printed - 1 = n - (printed + 1) := by omega
        simp only [if_neg e]
        rw [show ((printed : Int) + 1) = ((printed + 1 : Nat) : Int) by push_cast; rfl, i1, i2, z]
        refine ⟨by simp, ?_⟩
        simp only [List.length_cons]
        omega
    · have e : ¬ ((printed : Int) = (n : Int)) := by
        have : printed ≠ n := by omega
        exact_mod_cast this
      obtain ⟨i1, i2⟩ := ih (c / 256 * 256 + b % 256) printed (output ++ [b]) (consumed + 1)
        hrest (by omega) hp
      simp only [hnl, NEWLINE, if_false, if_neg e]
      rw [i1, i2]
      refine ⟨by simp, ?_⟩
      simp only [List.length_cons]
      omega

/-- C7 fails for the line count 0: `head -n 0 f` on a file holding the lines `a` and `b`
prints the byte `a` and consumes it, where the first 0 lines are the empty sequence;
on a file that starts with a newline it prints the whole file. -/
theorem head_zero_lines_prints_input :
    shell_head
        { stdin := { bytes := [], read_fails := false, close_fails := false }
          open_file := fun _ =>
            some { bytes := [97, 10, 98, 10], read_fails := false, close_fails := false }
          c_init := 0 }
        [Slot.str ['h', 'e', 'a', 'd'], Slot.str ['-', 'n'], Slot.str ['0'], Slot.str ['f'],
          Slot.null] =
        some { output := [97], consumed := 1, perror := false } ∧
      first_lines 0 [97, 10, 98, 10] = [] ∧
      shell_head
        { stdin := { bytes := [], read_fails := false, close_fails := false }
          open_file := fun _ =>
            some { bytes := [10, 97, 10, 98, 10], read_fails := false, close_fails := false }
          c_init := 0 }
        [Slot.str ['h', 'e', 'a', 'd'], Slot.str ['-', 'n'], Slot.str ['0'], Slot.str ['f'],
          Slot.null] =
        some { output := [10, 97, 10, 98, 10], consumed := 5, perror := false } ∧
      first_lines 0 [10, 97, 10, 98, 10] = [] := by
  decide

/-- The run of `head -n 2 f` on a file with the lines `a`, `b`, `c`: the output is
`a`, newline, `b`, newline, and four bytes are consumed. -/
theorem head_two_lines_example :
    shell_head
        { stdin := { bytes := [], read_fails := false, close_fails := false }
          open_file := fun _ =>
            some { bytes := [97, 10, 98, 10, 99, 10], read_fails := false,
                   close_fails := false }
          c_init := 0 }
        [Slot.str ['h', 'e', 'a', 'd'], Slot.str ['-', 'n'], Slot.str ['2'], Slot.str ['f'],
          Slot.null] =
      some { output := [97, 10, 98, 10], consumed := 4, perror := false } := by
  decide

/-- The value of `atoi` is an `int`: on a digit string beyond the range it is the `long`
of `strtol` reduced modulo 2^32. -/
theorem atoi_examples :
    atoi ['0'] = 0 ∧ atoi [' ', '-', '1', '2', 'x'] = -12 ∧
      atoi ['4', '2', '9', '4', '9', '6', '7', '2', '9', '7'] = 1 ∧
      atoi ['2', '1', '4', '7', '4', '8', '3', '6', '4', '8'] = -2147483648 := by
  decide

/-- A failing `read` ends the loop with a call of `shell_perror`: `head d` where the
first `read` on `d` returns -1 prints nothing. -/
theorem head_read_error_example :
    shell_head
        { stdin := { bytes := [], read_fails := false, close_fails := false }
          open_file := fun _ => some { bytes := [], read_fails := true, close_fails := false }
          c_init := 0 }
        [Slot.str ['h', 'e', 'a', 'd'], Slot.str ['d'], Slot.null] =
      some { output := [], consumed := 0, perror := true } := by
  decide

end Microshell
